import Mathlib

/-!
Verification development for the chiral-network core.

The Rust sources are shallowly embedded: byte strings become `List Nat`
(each entry a byte value), Rust `String`s become `List Char`, and the
filesystem directories used as content-addressed stores become
association lists from path strings to byte strings.  SHA-256 and
AES-256-GCM come from external crates (`sha2`, `aes_gcm`), so they are
passed in as explicit function parameters; theorems assume only the
contracts those crates provide (digest length, byte range, absence of
collisions among the inputs at hand, decrypt-of-encrypt identity), and
each such hypothesis is discharged on a concrete instance in a witness.
-/

namespace Chiral

/-- Lowercase hexadecimal digit characters, as produced by Rust's
`format!` with the `x` flag. -/
def hexDigit (n : Nat) : Char :=
  if n = 0 then '0' else if n = 1 then '1' else if n = 2 then '2'
  else if n = 3 then '3' else if n = 4 then '4' else if n = 5 then '5'
  else if n = 6 then '6' else if n = 7 then '7' else if n = 8 then '8'
  else if n = 9 then '9' else if n = 10 then 'a' else if n = 11 then 'b'
  else if n = 12 then 'c' else if n = 13 then 'd' else if n = 14 then 'e'
  else 'f'

/-- Hex-encode a byte string, two digits per byte (Rust `format!` with `x`
applied to a digest). -/
def hexEncode : List Nat → List Char
  | [] => []
  | b :: rest => hexDigit (b / 16) :: hexDigit (b % 16) :: hexEncode rest

/-- Numeric value of a lowercase hex digit (model of `hex::decode`). -/
def hexDigitVal (c : Char) : Nat :=
  if c = '0' then 0 else if c = '1' then 1 else if c = '2' then 2
  else if c = '3' then 3 else if c = '4' then 4 else if c = '5' then 5
  else if c = '6' then 6 else if c = '7' then 7 else if c = '8' then 8
  else if c = '9' then 9 else if c = 'a' then 10 else if c = 'b' then 11
  else if c = 'c' then 12 else if c = 'd' then 13 else if c = 'e' then 14
  else 15

/-- Decode a hex character string back into bytes (model of
`hex::decode` on well-formed even-length input). -/
def hexDecode : List Char → List Nat
  | c1 :: c2 :: rest => (hexDigitVal c1 * 16 + hexDigitVal c2) :: hexDecode rest
  | _ => []

theorem hexDigitVal_hexDigit {n : Nat} (h : n < 16) :
    hexDigitVal (hexDigit n) = n := by
  interval_cases n <;> rfl

theorem hexDecode_hexEncode {l : List Nat} (h : ∀ b ∈ l, b < 256) :
    hexDecode (hexEncode l) = l := by
  induction l with
  | nil => rfl
  | cons b rest ih =>
    have hb : b < 256 := h b (List.mem_cons_self b rest)
    have hhi : b / 16 < 16 := Nat.div_lt_of_lt_mul (by omega)
    have hlo : b % 16 < 16 := Nat.mod_lt _ (by omega)
    simp only [hexEncode, hexDecode, hexDigitVal_hexDigit hhi,
      hexDigitVal_hexDigit hlo]
    rw [ih (fun x hx => h x (List.mem_cons_of_mem _ hx))]
    congr 1
    omega

theorem hexEncode_length (l : List Nat) :
    (hexEncode l).length = 2 * l.length := by
  induction l with
  | nil => rfl
  | cons b rest ih => simp [hexEncode, ih]; omega

theorem hexEncode_inj_of_bytes {a b : List Nat}
    (ha : ∀ x ∈ a, x < 256) (hb : ∀ x ∈ b, x < 256)
    (h : hexEncode a = hexEncode b) : a = b := by
  have := congrArg hexDecode h
  rwa [hexDecode_hexEncode ha, hexDecode_hexEncode hb] at this

/-- A trivially injective stand-in digest used by witnesses: each number
is encoded in unary with a terminator, so distinct byte strings always
get distinct "digests".  Its output uses only the byte values 0 and 1. -/
def unaryHash : List Nat → List Nat
  | [] => []
  | n :: rest => List.replicate n 0 ++ 1 :: unaryHash rest

theorem unaryHash_bytes (l : List Nat) : ∀ b ∈ unaryHash l, b < 256 := by
  induction l with
  | nil => intro b hb; simp [unaryHash] at hb
  | cons n rest ih =>
    intro b hb
    simp only [unaryHash, List.mem_append, List.mem_cons] at hb
    rcases hb with h | h | h
    · have := List.eq_of_mem_replicate h; omega
    · omega
    · exact ih b h

theorem replicate_zero_one_inj {n m : Nat} {xs ys : List Nat}
    (h : List.replicate n 0 ++ 1 :: xs = List.replicate m 0 ++ 1 :: ys) :
    n = m ∧ xs = ys := by
  induction n generalizing m with
  | zero =>
    cases m with
    | zero => simpa using h
    | succ m => simp [List.replicate_succ] at h
  | succ n ih =>
    cases m with
    | zero => simp [List.replicate_succ] at h
    | succ m =>
      simp only [List.replicate_succ, List.cons_append, List.cons.injEq] at h
      obtain ⟨n_eq, xs_eq⟩ := ih h.2
      exact ⟨by omega, xs_eq⟩

theorem unaryHash_inj : ∀ {a b : List Nat}, unaryHash a = unaryHash b → a = b := by
  intro a
  induction a with
  | nil =>
    intro b h
    cases b with
    | nil => rfl
    | cons m rest =>
      exfalso
      have := congrArg List.length h
      simp [unaryHash, List.length_append, List.length_replicate] at this
      omega
  | cons n rest ih =>
    intro b h
    cases b with
    | nil =>
      exfalso
      have := congrArg List.length h
      simp [unaryHash, List.length_append, List.length_replicate] at this
    | cons m rest2 =>
      simp only [unaryHash] at h
      obtain ⟨hnm, htail⟩ := replicate_zero_one_inj h
      rw [hnm, ih htail]

theorem hexEncode_unaryHash_inj {a b : List Nat}
    (h : hexEncode (unaryHash a) = hexEncode (unaryHash b)) : a = b :=
  unaryHash_inj (hexEncode_inj_of_bytes (unaryHash_bytes a) (unaryHash_bytes b) h)

/-- Association-list lookup, keyed by strings; the model of both the
on-disk directories (key = path) and the in-memory `HashMap`s. -/
def lookupA {α : Type} : List (List Char × α) → List Char → Option α
  | [], _ => none
  | e :: rest, k => if e.1 = k then some e.2 else lookupA rest k

/-- Insert-or-replace, the model of `HashMap::insert` and of overwriting
a file at a fixed path. -/
def insertA {α : Type} (m : List (List Char × α)) (k : List Char) (v : α) :
    List (List Char × α) :=
  (k, v) :: m.filter (fun e => decide (e.1 ≠ k))

/-- Removal, the model of `HashMap::remove` and file deletion. -/
def removeA {α : Type} (m : List (List Char × α)) (k : List Char) :
    List (List Char × α) :=
  m.filter (fun e => decide (e.1 ≠ k))

theorem lookupA_insertA_self {α : Type} (m : List (List Char × α)) (k : List Char) (v : α) :
    lookupA (insertA m k v) k = some v := by
  simp [insertA, lookupA]

theorem lookupA_cons_self {α : Type} (m : List (List Char × α)) (k : List Char) (v : α) :
    lookupA ((k, v) :: m) k = some v := by
  simp [lookupA]

end Chiral

namespace Manager

/-!
Embedding of `src/src-tauri/src/manager.rs` (`ChunkManager`).  Chunk
hashes are the lowercase hex SHA-256 strings the source uses as map
keys; the chunk directory is an association list from on-disk path to
file contents.  The SHA-256 digest function and the AES-256-GCM
core (ciphertext of key/nonce/plaintext, and its inverse) are
parameters, since they come from the `sha2` and `aes_gcm` crates.
The fresh random nonce drawn for each encrypted chunk is modelled as an
input stream `nonces` indexed by chunk index, and the randomly generated
AES key as an input `aesKey` (present exactly when the caller passes a
recipient public key).
-/

open Chiral

abbrev Str := List Char

abbrev Bytes := List Nat

abbrev Store := List (Str × Bytes)

/-- Chunk record inside a manifest (`ChunkInfo` in manager.rs). -/
structure ChunkInfo where
  index : Nat
  hash : Str
  size : Nat
  encrypted_size : Nat
  offset : Nat
deriving DecidableEq, Repr

/-- Encryption descriptor in a manifest (`EncryptionInfo`); the wrapped
key bundle is opaque to the core and omitted. -/
structure EncryptionInfo where
  algorithm : Str
deriving DecidableEq, Repr

/-- Timestamps block of a manifest (`TimestampInfo`). -/
structure TimestampInfo where
  created : Nat
  modified : Nat
  accessed : Nat
deriving DecidableEq, Repr

/-- File manifest (`FileManifest` in manager.rs). -/
structure FileManifest where
  version : Str
  file_hash : Str
  file_name : Str
  file_size : Nat
  mime_type : Option Str
  chunk_size : Nat
  total_chunks : Nat
  chunks : List ChunkInfo
  encryption : Option EncryptionInfo
  timestamps : TimestampInfo
  manifest_hash : Str
deriving DecidableEq, Repr

/-- Hex SHA-256 of a byte string (`hash_chunk`; `hash_file` streams the
same digest over the whole file). -/
def hash_chunk (hashFn : Bytes → Bytes) (data : Bytes) : Str :=
  hexEncode (hashFn data)

/-- On-disk path of a chunk: subdirectory named by the first two hex
characters of the hash (`get_chunk_path`), relative to the storage
root. -/
def get_chunk_path (chunk_hash : Str) : Str :=
  ("chunks/").toList ++ chunk_hash.take (min 2 chunk_hash.length) ++
    ("/").toList ++ chunk_hash

/-- AES-256-GCM chunk encryption (`encrypt_chunk`): a fresh nonce is
prepended to the ciphertext. -/
def encrypt_chunk (encCore : Bytes → Bytes → Bytes → Bytes)
    (key : Bytes) (nonce : Bytes) (data : Bytes) : Bytes :=
  nonce ++ encCore key nonce data

/-- AES-256-GCM chunk decryption (`decrypt_chunk`): the first 12 bytes
are the nonce, the rest the ciphertext; GCM authentication may fail. -/
def decrypt_chunk (decCore : Bytes → Bytes → Bytes → Option Bytes)
    (key : Bytes) (encrypted_data : Bytes) : Except Str Bytes :=
  if encrypted_data.length < 12 then
    .error ("Encrypted data too short to contain nonce").toList
  else
    match decCore key (encrypted_data.take 12) (encrypted_data.drop 12) with
    | some plain => .ok plain
    | none => .error ("Decryption failed").toList

/-- Splitting a byte stream into successive reads of at most
`chunkSize` bytes, exactly as the `file.read` loop does (a zero-sized
buffer reads zero bytes and the loop exits at once). -/
def chunksOf (chunkSize : Nat) (data : Bytes) : List Bytes :=
  if h : chunkSize = 0 ∨ data = [] then []
  else data.take chunkSize :: chunksOf chunkSize (data.drop chunkSize)
termination_by data.length
decreasing_by
  push_neg at h
  simp only [List.length_drop]
  have h1 : 0 < chunkSize := Nat.pos_of_ne_zero h.1
  have h2 : 0 < data.length := List.length_pos.mpr h.2
  omega

/-- Bytes written for a new chunk: the two arms of the source's
`if let Some(key) = &aes_key` — AES-GCM nonce-framed ciphertext when a
key is in force, the plaintext chunk verbatim otherwise. -/
def storedData (encCore : Bytes → Bytes → Bytes → Bytes)
    (aesKey : Option Bytes) (nonces : Nat → Bytes) (index : Nat) (c : Bytes) :
    Bytes :=
  match aesKey with
  | some key => encrypt_chunk encCore key (nonces index) c
  | none => c

/-- The per-chunk loop of `store_file_with_manifest`: for each chunk,
reuse the existing on-disk file when its content-addressed path exists,
otherwise encrypt (when a key is in force) and write the new file. -/
def processChunks (hashFn : Bytes → Bytes) (encCore : Bytes → Bytes → Bytes → Bytes)
    (aesKey : Option Bytes) (nonces : Nat → Bytes) :
    List Bytes → Nat → Nat → Store → List ChunkInfo × Store
  | [], _, _, store => ([], store)
  | c :: rest, index, offset, store =>
    let chunkHash := hash_chunk hashFn c
    let path := get_chunk_path chunkHash
    match lookupA store path with
    | some existing =>
      let info : ChunkInfo :=
        ⟨index, chunkHash, c.length, existing.length, offset⟩
      let r := processChunks hashFn encCore aesKey nonces rest (index + 1)
        (offset + c.length) store
      (info :: r.1, r.2)
    | none =>
      let data : Bytes := storedData encCore aesKey nonces index c
      let info : ChunkInfo := ⟨index, chunkHash, c.length, data.length, offset⟩
      let r := processChunks hashFn encCore aesKey nonces rest (index + 1)
        (offset + c.length) ((path, data) :: store)
      (info :: r.1, r.2)

/-- Total bytes read by the chunk loop (the final value of `offset`,
recorded as `file_size`). -/
def sumSizes (cs : List Bytes) : Nat :=
  cs.foldr (fun c a => c.length + a) 0

/-- Length-prefixed encoding of a string, part of the model of
`serde_json::to_string` used only for manifest hashing. -/
def encodeStr (s : Str) : Bytes :=
  s.length :: s.map Char.toNat

/-- Deterministic serialization of a chunk record for manifest
hashing. -/
def encodeChunkInfo (c : ChunkInfo) : Bytes :=
  [c.index, c.size, c.encrypted_size, c.offset] ++ encodeStr c.hash

/-- Deterministic serialization of a manifest; stands in for the
canonical `serde_json` encoding that `calculate_manifest_hash`
hashes. -/
def encodeManifest (m : FileManifest) : Bytes :=
  encodeStr m.version ++ encodeStr m.file_hash ++ encodeStr m.file_name ++
  [m.file_size, m.chunk_size, m.total_chunks, m.chunks.length] ++
  (m.chunks.map encodeChunkInfo).foldr (· ++ ·) [] ++
  (match m.mime_type with | none => [0] | some s => 1 :: encodeStr s) ++
  (match m.encryption with | none => [0] | some e => 1 :: encodeStr e.algorithm) ++
  [m.timestamps.created, m.timestamps.modified, m.timestamps.accessed] ++
  encodeStr m.manifest_hash

/-- Hash of a manifest with its own hash field blanked
(`calculate_manifest_hash`). -/
def calculate_manifest_hash (hashFn : Bytes → Bytes) (m : FileManifest) : Str :=
  hexEncode (hashFn (encodeManifest { m with manifest_hash := [] }))

/-- The manifest assembled by `store_file_with_manifest` before its
self-referential hash is filled in. -/
def manifestOf (hashFn : Bytes → Bytes) (aesKey : Option Bytes)
    (chunkSize : Nat) (fileName : Str) (mime : Option Str) (now : Nat)
    (P : Bytes) (infos : List ChunkInfo) : FileManifest :=
  { version := ("1.0").toList
    file_hash := hash_chunk hashFn P
    file_name := fileName
    file_size := sumSizes (chunksOf chunkSize P)
    mime_type := mime
    chunk_size := chunkSize
    total_chunks := infos.length
    chunks := infos
    encryption := aesKey.map (fun _ => ⟨("AES-256-GCM").toList⟩)
    timestamps := ⟨now, now, now⟩
    manifest_hash := [] }

/-- Ingest (`store_file_with_manifest`): chunk the plaintext, store new
chunks content-addressed (encrypting them when a recipient key was
supplied), and emit the manifest. -/
def store_file_with_manifest (hashFn : Bytes → Bytes)
    (encCore : Bytes → Bytes → Bytes → Bytes)
    (aesKey : Option Bytes) (nonces : Nat → Bytes)
    (chunkSize : Nat) (fileName : Str) (mime : Option Str) (now : Nat)
    (P : Bytes) (store : Store) : FileManifest × Store :=
  let cs := chunksOf chunkSize P
  let r := processChunks hashFn encCore aesKey nonces cs 0 0 store
  let m0 : FileManifest := manifestOf hashFn aesKey chunkSize fileName mime now P r.1
  ({ m0 with manifest_hash := calculate_manifest_hash hashFn m0 }, r.2)

/-- Loading one chunk file by hash (`load_chunk`). -/
def load_chunk (store : Store) (chunk_hash : Str) : Except Str Bytes :=
  match lookupA store (get_chunk_path chunk_hash) with
  | some d => .ok d
  | none => .error ("Failed to load chunk").toList

/-- Key/encryption branch of the reassembly loop: decrypt when the
manifest says the file is encrypted and a key was given, fail when it is
encrypted and no key was given, pass the bytes through otherwise. -/
def plainStep (decCore : Bytes → Bytes → Bytes → Option Bytes)
    (encPresent : Bool) (key : Option Bytes) (chunk_data : Bytes) :
    Except Str Bytes :=
  match key with
  | some k =>
    if encPresent then decrypt_chunk decCore k chunk_data
    else .ok chunk_data
  | none =>
    if encPresent then
      .error ("File is encrypted but no decryption key provided").toList
    else .ok chunk_data

/-- The per-chunk loop of `reconstruct_file`: load, decrypt as needed,
check the plaintext hash and length, and append. -/
def reconstructChunks (hashFn : Bytes → Bytes)
    (decCore : Bytes → Bytes → Bytes → Option Bytes)
    (encPresent : Bool) (key : Option Bytes) (store : Store) :
    List ChunkInfo → Except Str Bytes
  | [] => .ok []
  | ci :: rest =>
    match load_chunk store ci.hash with
    | .error e => .error e
    | .ok chunk_data =>
      match plainStep decCore encPresent key chunk_data with
      | .error e => .error e
      | .ok plain =>
        if hash_chunk hashFn plain ≠ ci.hash then
          .error ("Chunk integrity check failed").toList
        else if plain.length ≠ ci.size then
          .error ("Chunk size mismatch").toList
        else
          match reconstructChunks hashFn decCore encPresent key store rest with
          | .error e => .error e
          | .ok out => .ok (plain ++ out)

/-- Reassembly (`reconstruct_file`), returning the bytes streamed to the
output file.  Verifies manifest integrity first and the whole-file hash
last. -/
def reconstruct_file (hashFn : Bytes → Bytes)
    (decCore : Bytes → Bytes → Bytes → Option Bytes)
    (m : FileManifest) (key : Option Bytes) (store : Store) :
    Except Str Bytes :=
  if calculate_manifest_hash hashFn m ≠ m.manifest_hash then
    .error ("Manifest integrity check failed").toList
  else
    match reconstructChunks hashFn decCore m.encryption.isSome key store m.chunks with
    | .error e => .error e
    | .ok out =>
      if hash_chunk hashFn out ≠ m.file_hash then
        .error ("Reconstructed file hash does not match manifest").toList
      else .ok out

end Manager

namespace Manager

open Chiral

theorem chunksOf_flatten (chunkSize : Nat) (hcs : chunkSize ≠ 0) (data : Bytes) :
    (chunksOf chunkSize data).foldr (· ++ ·) [] = data := by
  have gen : ∀ n (d : Bytes), d.length ≤ n →
      (chunksOf chunkSize d).foldr (· ++ ·) [] = d := by
    intro n
    induction n with
    | zero =>
      intro d hlen
      have hd : d = [] := List.eq_nil_of_length_eq_zero (Nat.le_zero.mp hlen)
      rw [hd, chunksOf]
      simp
    | succ n ih =>
      intro d hlen
      rw [chunksOf]
      by_cases hd : d = []
      · simp [hd]
      · have hcond : ¬(chunkSize = 0 ∨ d = []) := by tauto
        rw [dif_neg hcond]
        have hdrop : (d.drop chunkSize).length ≤ n := by
          simp only [List.length_drop]
          have h1 : 0 < chunkSize := Nat.pos_of_ne_zero hcs
          omega
        simp only [List.foldr_cons, ih _ hdrop, List.take_append_drop]
  exact gen data.length data le_rfl

theorem get_chunk_path_inj {h1 h2 : Str}
    (h : get_chunk_path h1 = get_chunk_path h2) : h1 = h2 := by
  unfold get_chunk_path at h
  have hlen := congrArg List.length h
  simp only [List.length_append, List.length_take] at hlen
  have hl : h1.length = h2.length := by omega
  simp only [List.append_assoc] at h
  have h2' := List.append_cancel_left h
  have htk : (h1.take (min 2 h1.length)).length = (h2.take (min 2 h2.length)).length := by
    simp [List.length_take, hl]
  have := (List.append_inj h2' htk).2
  exact List.append_cancel_left this

/-- The decryption pipeline through which `reconstruct_file` pushes data
loaded from the chunk store, as a function of the key option. -/
def chunkPlainOf (decCore : Bytes → Bytes → Bytes → Option Bytes)
    (aesKey : Option Bytes) (d : Bytes) : Except Str Bytes :=
  match aesKey with
  | some k => decrypt_chunk decCore k d
  | none => .ok d

/-- Consistency of a chunk store relative to a key mode: anything found
at a content-addressed chunk path decrypts to a plaintext whose hash is
the path's hash.  Holds for the empty store and is preserved by
ingest. -/
def StoreInv (hashFn : Bytes → Bytes)
    (decCore : Bytes → Bytes → Bytes → Option Bytes)
    (aesKey : Option Bytes) (st : Store) : Prop :=
  ∀ h d, lookupA st (get_chunk_path h) = some d →
    ∃ plain, chunkPlainOf decCore aesKey d = .ok plain ∧
      hash_chunk hashFn plain = h

theorem storeInv_nil (hashFn : Bytes → Bytes)
    (decCore : Bytes → Bytes → Bytes → Option Bytes) (aesKey : Option Bytes) :
    StoreInv hashFn decCore aesKey [] := by
  intro h d hd
  simp [lookupA] at hd

theorem processChunks_mono (hashFn : Bytes → Bytes)
    (encCore : Bytes → Bytes → Bytes → Bytes)
    (aesKey : Option Bytes) (nonces : Nat → Bytes) :
    ∀ (cs : List Bytes) (idx off : Nat) (st : Store) (p : Str) (d : Bytes),
      lookupA st p = some d →
      lookupA (processChunks hashFn encCore aesKey nonces cs idx off st).2 p = some d := by
  intro cs
  induction cs with
  | nil => intro idx off st p d h; simpa [processChunks] using h
  | cons c rest ih =>
    intro idx off st p d h
    simp only [processChunks]
    cases hl : lookupA st (get_chunk_path (hash_chunk hashFn c)) with
    | some existing => exact ih _ _ _ _ _ h
    | none =>
      apply ih
      by_cases hp : get_chunk_path (hash_chunk hashFn c) = p
      · rw [hp, h] at hl; cases hl
      · simpa [lookupA, hp] using h

theorem processChunks_present (hashFn : Bytes → Bytes)
    (encCore : Bytes → Bytes → Bytes → Bytes)
    (aesKey : Option Bytes) (nonces : Nat → Bytes) :
    ∀ (cs : List Bytes) (idx off : Nat) (st : Store) (c : Bytes), c ∈ cs →
      ∃ d, lookupA (processChunks hashFn encCore aesKey nonces cs idx off st).2
        (get_chunk_path (hash_chunk hashFn c)) = some d := by
  intro cs
  induction cs with
  | nil => intro _ _ _ c hc; cases hc
  | cons c0 rest ih =>
    intro idx off st c hc
    simp only [processChunks]
    rcases List.mem_cons.mp hc with rfl | hmem
    · cases hl : lookupA st (get_chunk_path (hash_chunk hashFn c)) with
      | some existing =>
        exact ⟨existing, processChunks_mono _ _ _ _ _ _ _ _ _ _ hl⟩
      | none =>
        exact ⟨_, processChunks_mono _ _ _ _ _ _ _ _ _ _
          (lookupA_cons_self _ _ _)⟩
    · cases hl : lookupA st (get_chunk_path (hash_chunk hashFn c0)) with
      | some existing => exact ih _ _ _ _ hmem
      | none => exact ih _ _ _ _ hmem

theorem processChunks_unchanged (hashFn : Bytes → Bytes)
    (encCore : Bytes → Bytes → Bytes → Bytes)
    (aesKey : Option Bytes) (nonces : Nat → Bytes) :
    ∀ (cs : List Bytes) (idx off : Nat) (st : Store),
      (∀ c ∈ cs, ∃ d, lookupA st (get_chunk_path (hash_chunk hashFn c)) = some d) →
      (processChunks hashFn encCore aesKey nonces cs idx off st).2 = st := by
  intro cs
  induction cs with
  | nil => intro idx off st _; simp [processChunks]
  | cons c0 rest ih =>
    intro idx off st h
    obtain ⟨d0, hd0⟩ := h c0 (List.mem_cons_self c0 rest)
    simp only [processChunks, hd0]
    exact ih _ _ _ (fun c hc => h c (List.mem_cons_of_mem _ hc))

theorem processChunks_hashes (hashFn : Bytes → Bytes)
    (encCore : Bytes → Bytes → Bytes → Bytes)
    (aesKey : Option Bytes) (nonces : Nat → Bytes) :
    ∀ (cs : List Bytes) (idx off : Nat) (st : Store),
      (processChunks hashFn encCore aesKey nonces cs idx off st).1.map
          (fun i => i.hash) = cs.map (hash_chunk hashFn) := by
  intro cs
  induction cs with
  | nil => intro idx off st; simp [processChunks]
  | cons c0 rest ih =>
    intro idx off st
    simp only [processChunks]
    cases hl : lookupA st (get_chunk_path (hash_chunk hashFn c0)) with
    | some existing => simp only [List.map_cons]; rw [ih]
    | none => simp only [List.map_cons]; rw [ih]

theorem processChunks_sizes (hashFn : Bytes → Bytes)
    (encCore : Bytes → Bytes → Bytes → Bytes)
    (aesKey : Option Bytes) (nonces : Nat → Bytes) :
    ∀ (cs : List Bytes) (idx off : Nat) (st : Store),
      (processChunks hashFn encCore aesKey nonces cs idx off st).1.map
          (fun i => i.size) = cs.map List.length := by
  intro cs
  induction cs with
  | nil => intro idx off st; simp [processChunks]
  | cons c0 rest ih =>
    intro idx off st
    simp only [processChunks]
    cases hl : lookupA st (get_chunk_path (hash_chunk hashFn c0)) with
    | some existing => simp only [List.map_cons]; rw [ih]
    | none => simp only [List.map_cons]; rw [ih]

theorem processChunks_new_entries (hashFn : Bytes → Bytes)
    (encCore : Bytes → Bytes → Bytes → Bytes)
    (aesKey : Option Bytes) (nonces : Nat → Bytes) :
    ∀ (cs : List Bytes) (idx off : Nat) (st : Store) (p : Str) (d : Bytes),
      lookupA (processChunks hashFn encCore aesKey nonces cs idx off st).2 p = some d →
      lookupA st p = some d ∨
      ∃ c i, c ∈ cs ∧ p = get_chunk_path (hash_chunk hashFn c) ∧
        d = storedData encCore aesKey nonces i c := by
  intro cs
  induction cs with
  | nil => intro idx off st p d h; left; simpa [processChunks] using h
  | cons c0 rest ih =>
    intro idx off st p d h
    simp only [processChunks] at h
    cases hl : lookupA st (get_chunk_path (hash_chunk hashFn c0)) with
    | some existing =>
      rw [hl] at h
      rcases ih _ _ _ _ _ h with h' | ⟨c, i, hc, hp, hd⟩
      · exact Or.inl h'
      · exact Or.inr ⟨c, i, List.mem_cons_of_mem _ hc, hp, hd⟩
    | none =>
      rw [hl] at h
      rcases ih _ _ _ _ _ h with h' | ⟨c, i, hc, hp, hd⟩
      · by_cases hp0 : get_chunk_path (hash_chunk hashFn c0) = p
        · right
          refine ⟨c0, idx, List.mem_cons_self c0 rest, hp0.symm, ?_⟩
          rw [← hp0, lookupA_cons_self] at h'
          injection h' with h''
          exact h''.symm
        · left
          simpa [lookupA, hp0] using h'
      · exact Or.inr ⟨c, i, List.mem_cons_of_mem _ hc, hp, hd⟩

theorem processChunks_inv (hashFn : Bytes → Bytes)
    (encCore : Bytes → Bytes → Bytes → Bytes)
    (decCore : Bytes → Bytes → Bytes → Option Bytes)
    (aesKey : Option Bytes) (nonces : Nat → Bytes)
    (hdec : ∀ k n d, n.length = 12 → decCore k n (encCore k n d) = some d)
    (hn : ∀ i, (nonces i).length = 12) :
    ∀ (cs : List Bytes) (idx off : Nat) (st : Store),
      StoreInv hashFn decCore aesKey st →
      StoreInv hashFn decCore aesKey
        (processChunks hashFn encCore aesKey nonces cs idx off st).2 := by
  intro cs
  induction cs with
  | nil => intro idx off st hst; simpa [processChunks] using hst
  | cons c0 rest ih =>
    intro idx off st hst
    simp only [processChunks]
    cases hl : lookupA st (get_chunk_path (hash_chunk hashFn c0)) with
    | some existing => exact ih _ _ _ hst
    | none =>
      apply ih
      intro h d hd
      by_cases hp : get_chunk_path (hash_chunk hashFn c0) = get_chunk_path h
      · have hh : hash_chunk hashFn c0 = h := get_chunk_path_inj hp
        rw [← hp, lookupA_cons_self] at hd
        injection hd with hd'
        refine ⟨c0, ?_, hh⟩
        rw [← hd']
        cases aesKey with
        | none => rfl
        | some k =>
          simp only [storedData, chunkPlainOf, decrypt_chunk, encrypt_chunk]
          have hlen : (nonces idx).length = 12 := hn idx
          have hge : ¬((nonces idx ++ encCore k (nonces idx) c0).length < 12) := by
            simp [List.length_append, hlen]
          rw [if_neg hge, List.take_left' hlen, List.drop_left' hlen,
            hdec k (nonces idx) c0 hlen]
      · apply hst
        rw [← hd]
        simp [lookupA, hp]

theorem plainStep_chunkPlainOf (decCore : Bytes → Bytes → Bytes → Option Bytes)
    (aesKey : Option Bytes) (d : Bytes) :
    plainStep decCore aesKey.isSome aesKey d = chunkPlainOf decCore aesKey d := by
  cases aesKey <;> rfl

theorem calculate_manifest_hash_update (hashFn : Bytes → Bytes)
    (m : FileManifest) (x : Str) :
    calculate_manifest_hash hashFn { m with manifest_hash := x } =
      calculate_manifest_hash hashFn m := by
  cases m
  rfl

theorem reconstruct_file_eq (hashFn : Bytes → Bytes)
    (decCore : Bytes → Bytes → Bytes → Option Bytes)
    (m : FileManifest) (key : Option Bytes) (store : Store) (out : Bytes)
    (h1 : calculate_manifest_hash hashFn m = m.manifest_hash)
    (h2 : reconstructChunks hashFn decCore m.encryption.isSome key store m.chunks =
      .ok out)
    (h3 : hash_chunk hashFn out = m.file_hash) :
    reconstruct_file hashFn decCore m key store = .ok out := by
  unfold reconstruct_file
  rw [if_neg (fun hne => hne h1), h2]
  show (if hash_chunk hashFn out ≠ m.file_hash then
      Except.error (("Reconstructed file hash does not match manifest").toList)
    else Except.ok out) = Except.ok out
  rw [if_neg (fun hne => hne h3)]

theorem reconstructChunks_ok (hashFn : Bytes → Bytes)
    (decCore : Bytes → Bytes → Bytes → Option Bytes) (aesKey : Option Bytes)
    (hinj : ∀ a b : Bytes, hash_chunk hashFn a = hash_chunk hashFn b → a = b)
    (st : Store) (hst : StoreInv hashFn decCore aesKey st) :
    ∀ (infos : List ChunkInfo) (cs : List Bytes),
      infos.map (fun i => i.hash) = cs.map (hash_chunk hashFn) →
      infos.map (fun i => i.size) = cs.map List.length →
      (∀ c ∈ cs, ∃ d, lookupA st (get_chunk_path (hash_chunk hashFn c)) = some d) →
      reconstructChunks hashFn decCore aesKey.isSome aesKey st infos =
        .ok (cs.foldr (· ++ ·) []) := by
  intro infos
  induction infos with
  | nil =>
    intro cs hh hs _
    cases cs with
    | nil => simp [reconstructChunks]
    | cons c cs2 => simp at hh
  | cons ci rest ih =>
    intro cs hh hs hpres
    cases cs with
    | nil => simp at hh
    | cons c cs2 =>
      simp only [List.map_cons, List.cons.injEq] at hh hs
      obtain ⟨hh1, hh2⟩ := hh
      obtain ⟨hs1, hs2⟩ := hs
      obtain ⟨d, hd⟩ := hpres c (List.mem_cons_self c cs2)
      have hload : load_chunk st ci.hash = .ok d := by
        rw [hh1]
        simp [load_chunk, hd]
      obtain ⟨plain, hplain, hhash⟩ := hst (hash_chunk hashFn c) d hd
      have hpc : plain = c := hinj plain c hhash
      subst hpc
      simp only [reconstructChunks, hload, plainStep_chunkPlainOf, hplain]
      rw [if_neg (by rw [hh1, hhash]; exact fun hne => hne rfl)]
      rw [if_neg (by rw [hs1]; exact fun hne => hne rfl)]
      rw [ih cs2 hh2 hs2 (fun c2 hc2 => hpres c2 (List.mem_cons_of_mem _ hc2))]
      rfl

/-- C1: For every plaintext `P` and key mode, ingesting `P` with
`store_file_with_manifest` and then reassembling the produced manifest
with `reconstruct_file` under the matching key succeeds, and the bytes
written are exactly `P` — hence their SHA-256 equals `SHA256(P)`.  The
chunk store may hold prior consistent content (`StoreInv`); the
hypotheses are the external crates' contracts: SHA-256 collision-free
on the relevant inputs, AES-GCM decryption inverting encryption, and
96-bit (12-byte) nonces. -/
theorem store_then_reconstruct_roundtrip (hashFn : Bytes → Bytes)
    (encCore : Bytes → Bytes → Bytes → Bytes)
    (decCore : Bytes → Bytes → Bytes → Option Bytes)
    (hinj : ∀ a b : Bytes, hash_chunk hashFn a = hash_chunk hashFn b → a = b)
    (hdec : ∀ k n d, n.length = 12 → decCore k n (encCore k n d) = some d)
    (aesKey : Option Bytes) (nonces : Nat → Bytes)
    (hn : ∀ i, (nonces i).length = 12)
    (chunkSize : Nat) (hcs : chunkSize ≠ 0)
    (fileName : Str) (mime : Option Str) (now : Nat) (P : Bytes) (st : Store)
    (hst : StoreInv hashFn decCore aesKey st) :
    reconstruct_file hashFn decCore
      (store_file_with_manifest hashFn encCore aesKey nonces chunkSize
        fileName mime now P st).1
      aesKey
      (store_file_with_manifest hashFn encCore aesKey nonces chunkSize
        fileName mime now P st).2
      = .ok P := by
  set r := processChunks hashFn encCore aesKey nonces (chunksOf chunkSize P) 0 0 st with hr
  set m0 := manifestOf hashFn aesKey chunkSize fileName mime now P r.1 with hm0
  have hpair : store_file_with_manifest hashFn encCore aesKey nonces chunkSize
      fileName mime now P st =
      ({ m0 with manifest_hash := calculate_manifest_hash hashFn m0 }, r.2) := rfl
  rw [hpair]
  have hmani : calculate_manifest_hash hashFn
      ({ m0 with manifest_hash := calculate_manifest_hash hashFn m0 }) =
      ({ m0 with manifest_hash := calculate_manifest_hash hashFn m0 } :
        FileManifest).manifest_hash := by
    rw [calculate_manifest_hash_update]
  have henc : ({ m0 with manifest_hash := calculate_manifest_hash hashFn m0 } :
      FileManifest).encryption.isSome = aesKey.isSome := by
    rw [hm0]
    simp [manifestOf, Option.isSome_map]
  have hchunks : ({ m0 with manifest_hash := calculate_manifest_hash hashFn m0 } :
      FileManifest).chunks = r.1 := by
    rw [hm0]; rfl
  have hrc : reconstructChunks hashFn decCore aesKey.isSome aesKey r.2 r.1 =
      .ok P := by
    have := reconstructChunks_ok hashFn decCore aesKey hinj r.2
      (processChunks_inv hashFn encCore decCore aesKey nonces hdec hn
        (chunksOf chunkSize P) 0 0 st hst)
      r.1 (chunksOf chunkSize P)
      (processChunks_hashes hashFn encCore aesKey nonces (chunksOf chunkSize P) 0 0 st)
      (processChunks_sizes hashFn encCore aesKey nonces (chunksOf chunkSize P) 0 0 st)
      (fun c hc => processChunks_present hashFn encCore aesKey nonces
        (chunksOf chunkSize P) 0 0 st c hc)
    rwa [chunksOf_flatten chunkSize hcs P] at this
  apply reconstruct_file_eq
  · exact hmani
  · rw [henc, hchunks]
    exact hrc
  · rw [hm0]
    rfl

/-- Closed instance of C1: the round trip evaluated on plaintext
`[1, 2, 3]` with chunk size 2, no encryption key, and the empty store,
with the unary stand-in digest discharging the injectivity contract. -/
theorem store_then_reconstruct_roundtrip_witness :
    reconstruct_file unaryHash (fun _ _ d => some d)
      (store_file_with_manifest unaryHash (fun _ _ d => d) none
        (fun _ => List.replicate 12 0) 2 [] none 0 [1, 2, 3] []).1
      none
      (store_file_with_manifest unaryHash (fun _ _ d => d) none
        (fun _ => List.replicate 12 0) 2 [] none 0 [1, 2, 3] []).2
      = .ok [1, 2, 3] :=
  store_then_reconstruct_roundtrip unaryHash (fun _ _ d => d) (fun _ _ d => some d)
    (fun a b h => hexEncode_unaryHash_inj h)
    (fun _ _ _ _ => rfl)
    none (fun _ => List.replicate 12 0) (fun _ => by simp)
    2 (by decide) [] none 0 [1, 2, 3] []
    (storeInv_nil unaryHash (fun _ _ d => some d) none)

end Manager

namespace Manager

open Chiral

/-- C10: When `store_file_with_manifest` is called with no recipient
public key, the manifest's encryption descriptor is absent and every
newly written chunk file holds the plaintext chunk bytes verbatim; when
a recipient key is supplied, every newly written chunk file is the
AES-GCM nonce-framed encryption of its chunk — so chunk data is
encrypted exactly when a key is supplied. -/
theorem store_without_key_stores_plaintext (hashFn : Bytes → Bytes)
    (encCore : Bytes → Bytes → Bytes → Bytes) (nonces : Nat → Bytes)
    (chunkSize : Nat) (fileName : Str) (mime : Option Str) (now : Nat)
    (P : Bytes) (st : Store) :
    (store_file_with_manifest hashFn encCore none nonces chunkSize
      fileName mime now P st).1.encryption = none ∧
    (∀ p d,
      lookupA (store_file_with_manifest hashFn encCore none nonces chunkSize
        fileName mime now P st).2 p = some d →
      lookupA st p = some d ∨
      ∃ c, c ∈ chunksOf chunkSize P ∧
        p = get_chunk_path (hash_chunk hashFn c) ∧ d = c) ∧
    (∀ key p d,
      lookupA (store_file_with_manifest hashFn encCore (some key) nonces chunkSize
        fileName mime now P st).2 p = some d →
      lookupA st p = some d ∨
      ∃ c i, c ∈ chunksOf chunkSize P ∧
        p = get_chunk_path (hash_chunk hashFn c) ∧
        d = encrypt_chunk encCore key (nonces i) c) := by
  refine ⟨rfl, ?_, ?_⟩
  · intro p d hd
    have hnew := processChunks_new_entries hashFn encCore none nonces
      (chunksOf chunkSize P) 0 0 st p d hd
    rcases hnew with h | ⟨c, i, hc, hp, hdd⟩
    · exact Or.inl h
    · exact Or.inr ⟨c, hc, hp, hdd⟩
  · intro key p d hd
    have hnew := processChunks_new_entries hashFn encCore (some key) nonces
      (chunksOf chunkSize P) 0 0 st p d hd
    rcases hnew with h | ⟨c, i, hc, hp, hdd⟩
    · exact Or.inl h
    · exact Or.inr ⟨c, i, hc, hp, hdd⟩

/-- Closed instance of C10: evaluated with no key on plaintext
`[1, 2, 3]`, the manifest carries no encryption descriptor. -/
theorem store_without_key_stores_plaintext_witness :
    (store_file_with_manifest Chiral.unaryHash (fun _ _ d => d) none
      (fun _ => List.replicate 12 0) 2 [] none 0 [1, 2, 3] []).1.encryption = none :=
  (store_without_key_stores_plaintext Chiral.unaryHash (fun _ _ d => d)
    (fun _ => List.replicate 12 0) 2 [] none 0 [1, 2, 3] []).1

/-- C3: Ingesting the same plaintext twice into the same store is
idempotent on disk — the second ingest leaves the chunk directory
unchanged (every chunk's content-addressed file already exists and is
reused without re-writing), so the number of chunk files after the
second ingest equals the number after the first; and every chunk of the
plaintext is stored under `chunks/<first two hex characters>/<hash>`. -/
theorem ingest_twice_idempotent (hashFn : Bytes → Bytes)
    (encCore : Bytes → Bytes → Bytes → Bytes) (aesKey : Option Bytes)
    (nonces1 nonces2 : Nat → Bytes) (hlen32 : ∀ d, (hashFn d).length = 32)
    (chunkSize : Nat) (fileName : Str) (mime : Option Str) (now1 now2 : Nat)
    (P : Bytes) (st0 : Store) :
    (store_file_with_manifest hashFn encCore aesKey nonces2 chunkSize
       fileName mime now2 P
       (store_file_with_manifest hashFn encCore aesKey nonces1 chunkSize
         fileName mime now1 P st0).2).2
      = (store_file_with_manifest hashFn encCore aesKey nonces1 chunkSize
         fileName mime now1 P st0).2 ∧
    (store_file_with_manifest hashFn encCore aesKey nonces2 chunkSize
       fileName mime now2 P
       (store_file_with_manifest hashFn encCore aesKey nonces1 chunkSize
         fileName mime now1 P st0).2).2.length
      = (store_file_with_manifest hashFn encCore aesKey nonces1 chunkSize
         fileName mime now1 P st0).2.length ∧
    (∀ c ∈ chunksOf chunkSize P,
      (∃ d, lookupA (store_file_with_manifest hashFn encCore aesKey nonces1
          chunkSize fileName mime now1 P st0).2
          (get_chunk_path (hash_chunk hashFn c)) = some d) ∧
      get_chunk_path (hash_chunk hashFn c) =
        ("chunks/").toList ++ (hash_chunk hashFn c).take 2 ++
          ("/").toList ++ hash_chunk hashFn c) := by
  have hst1 : (store_file_with_manifest hashFn encCore aesKey nonces1 chunkSize
      fileName mime now1 P st0).2 =
      (processChunks hashFn encCore aesKey nonces1 (chunksOf chunkSize P) 0 0 st0).2 :=
    rfl
  have hpres : ∀ c ∈ chunksOf chunkSize P,
      ∃ d, lookupA (store_file_with_manifest hashFn encCore aesKey nonces1
        chunkSize fileName mime now1 P st0).2
        (get_chunk_path (hash_chunk hashFn c)) = some d := by
    intro c hc
    rw [hst1]
    exact processChunks_present hashFn encCore aesKey nonces1
      (chunksOf chunkSize P) 0 0 st0 c hc
  have heq : (store_file_with_manifest hashFn encCore aesKey nonces2 chunkSize
      fileName mime now2 P
      (store_file_with_manifest hashFn encCore aesKey nonces1 chunkSize
        fileName mime now1 P st0).2).2
      = (store_file_with_manifest hashFn encCore aesKey nonces1 chunkSize
        fileName mime now1 P st0).2 :=
    processChunks_unchanged hashFn encCore aesKey nonces2
      (chunksOf chunkSize P) 0 0 _ hpres
  refine ⟨heq, congrArg List.length heq, ?_⟩
  intro c hc
  refine ⟨hpres c hc, ?_⟩
  have hmin : min 2 (hash_chunk hashFn c).length = 2 := by
    rw [hash_chunk, hexEncode_length, hlen32]
    omega
  rw [get_chunk_path, hmin]

/-- Closed instance of C3: re-ingesting `[1, 2, 3]` into the store left
by a first ingest changes nothing on disk (a fixed 32-byte digest
discharges the digest-length contract; no injectivity is needed). -/
theorem ingest_twice_idempotent_witness :
    (store_file_with_manifest (fun _ => List.replicate 32 0) (fun _ _ d => d) none
       (fun _ => []) 2 [] none 7 [1, 2, 3]
       (store_file_with_manifest (fun _ => List.replicate 32 0) (fun _ _ d => d) none
         (fun _ => []) 2 [] none 5 [1, 2, 3] []).2).2
      = (store_file_with_manifest (fun _ => List.replicate 32 0) (fun _ _ d => d) none
         (fun _ => []) 2 [] none 5 [1, 2, 3] []).2 :=
  (ingest_twice_idempotent (fun _ => List.replicate 32 0) (fun _ _ d => d) none
    (fun _ => []) (fun _ => []) (fun _ => by simp) 2 [] none 5 7 [1, 2, 3] []).1

end Manager

namespace Chunks

/-!
Embedding of `src/storage/src/chunks.rs` (the standalone `ChunkManager`
of the storage crate).  A stored chunk file is
`[header][metadata][ciphertext][checksum]`; the checksum appended by
`create_chunk_file` is the hex-decoded SHA-256 hex string of everything
before it.  The source serializes the 78 bytes of header fields and
then pads only up to `HEADER_SIZE = 64`, which is already exceeded, so
the pad loop is a no-op; the embedding reproduces that byte layout
exactly. -/

open Chiral

/-- Magic bytes `CHNK`. -/
def CHUNK_MAGIC : List Nat := [0x43, 0x48, 0x4E, 0x4B]

def HEADER_SIZE : Nat := 64

def METADATA_SIZE : Nat := 256

def CHECKSUM_SIZE : Nat := 32

/-- Chunk header (`ChunkHeader`). -/
structure ChunkHeader where
  magic : List Nat
  version : Nat
  chunk_index : Nat
  total_chunks : Nat
  file_hash : List Nat
  chunk_hash : List Nat
deriving DecidableEq, Repr

/-- Chunk metadata (`ChunkMetadata`). -/
structure ChunkMetadata where
  iv : List Nat
  compression_type : Nat
  original_size : Nat
  compressed_size : Nat
  timestamp : Nat
deriving DecidableEq, Repr

/-- Chunk record returned by `chunk_file` (`ChunkInfo` in chunks.rs). -/
structure ChunkInfo where
  index : Nat
  hash : List Char
  size : Nat
  encrypted_size : Nat
  total_chunks : Nat
  file_hash : List Char
deriving DecidableEq, Repr

/-- Little-endian serialization of a `u16`. -/
def u16le (n : Nat) : List Nat := [n % 256, n / 256 % 256]

/-- Little-endian serialization of a `u32`. -/
def u32le (n : Nat) : List Nat :=
  [n % 256, n / 256 % 256, n / 256 ^ 2 % 256, n / 256 ^ 3 % 256]

/-- Little-endian serialization of a `u64`. -/
def u64le (n : Nat) : List Nat :=
  [n % 256, n / 256 % 256, n / 256 ^ 2 % 256, n / 256 ^ 3 % 256,
   n / 256 ^ 4 % 256, n / 256 ^ 5 % 256, n / 256 ^ 6 % 256, n / 256 ^ 7 % 256]

/-- Little-endian reading of a byte slice (`u64::from_le_bytes`). -/
def leDecode (l : List Nat) : Nat := l.foldr (fun b a => b + 256 * a) 0

/-- The source's `while chunk_file.len() < target` zero-padding loop:
pads up to `target` and does nothing when the list is already at least
that long. -/
def padTo (target : Nat) (l : List Nat) : List Nat :=
  l ++ List.replicate (target - l.length) 0

/-- Hex SHA-256 of a byte string (`hash_chunk` in chunks.rs). -/
def hash_chunk (hashFn : List Nat → List Nat) (data : List Nat) : List Char :=
  hexEncode (hashFn data)

/-- Everything `create_chunk_file` accumulates before the checksum:
header fields, zero-pad to `HEADER_SIZE`, metadata fields, zero-pad to
`metadata_start + METADATA_SIZE`, ciphertext. -/
def frameBody (h : ChunkHeader) (md : ChunkMetadata)
    (encrypted_data : List Nat) : List Nat :=
  let afterHeader := padTo HEADER_SIZE
    (h.magic ++ u16le h.version ++ u32le h.chunk_index ++
      u32le h.total_chunks ++ h.file_hash ++ h.chunk_hash)
  let metadata_start := afterHeader.length
  let afterMeta := padTo (metadata_start + METADATA_SIZE)
    (afterHeader ++ md.iv ++ [md.compression_type % 256] ++
      u64le md.original_size ++ u64le md.compressed_size ++
      u64le md.timestamp)
  afterMeta ++ encrypted_data

/-- Serialize a full chunk file (`create_chunk_file`): the accumulated
body followed by the hex-decoded SHA-256 checksum of all preceding
bytes. -/
def create_chunk_file (hashFn : List Nat → List Nat)
    (h : ChunkHeader) (md : ChunkMetadata) (encrypted_data : List Nat) :
    List Nat :=
  frameBody h md encrypted_data ++
    hexDecode (hash_chunk hashFn (frameBody h md encrypted_data))

/-- Integrity check of a stored frame (`validate_chunk`): the trailing
`CHECKSUM_SIZE` bytes must equal the SHA-256 of everything before
them. -/
def validate_chunk (hashFn : List Nat → List Nat) (chunk_data : List Nat) :
    Bool :=
  if chunk_data.length < HEADER_SIZE + METADATA_SIZE + CHECKSUM_SIZE then false
  else
    decide (chunk_data.drop (chunk_data.length - CHECKSUM_SIZE) =
      hexDecode (hash_chunk hashFn
        (chunk_data.take (chunk_data.length - CHECKSUM_SIZE))))

/-- Metadata extraction (`extract_metadata`), reading at the fixed
offset `HEADER_SIZE` (which the 78-byte header actually written by the
source exceeds). -/
def extract_metadata (chunk_data : List Nat) : Except (List Char) ChunkMetadata :=
  if chunk_data.length < HEADER_SIZE + METADATA_SIZE then
    .error ("Chunk data too small for metadata").toList
  else
    let ms := (chunk_data.drop HEADER_SIZE).take METADATA_SIZE
    .ok { iv := ms.take 16
          compression_type := ms.getD 16 0
          original_size := leDecode ((ms.drop 17).take 8)
          compressed_size := leDecode ((ms.drop 25).take 8)
          timestamp := leDecode ((ms.drop 33).take 8) }

/-- Ciphertext extraction (`extract_encrypted_data`). -/
def extract_encrypted_data (chunk_data : List Nat) :
    Except (List Char) (List Nat) :=
  if chunk_data.length < HEADER_SIZE + METADATA_SIZE + CHECKSUM_SIZE then
    .error ("Chunk data too small").toList
  else
    .ok ((chunk_data.drop (HEADER_SIZE + METADATA_SIZE)).take
      (chunk_data.length - CHECKSUM_SIZE - (HEADER_SIZE + METADATA_SIZE)))

/-- AES-256-GCM decryption (`decrypt_chunk` in chunks.rs): the first 12
bytes of the 16-byte IV field are the nonce. -/
def decrypt_chunk (decCore : List Nat → List Nat → List Nat → Option (List Nat))
    (key : List Nat) (encrypted_data : List Nat) (nonce : List Nat) :
    Except (List Char) (List Nat) :=
  match decCore key (nonce.take 12) encrypted_data with
  | some plain => .ok plain
  | none => .error ("Decryption failed").toList

/-- Loading one chunk file by hash (`load_chunk` in chunks.rs; this
store is keyed directly by the chunk hash, without sharding). -/
def load_chunk (store : List (List Char × List Nat)) (chunk_hash : List Char) :
    Except (List Char) (List Nat) :=
  match lookupA store chunk_hash with
  | some d => .ok d
  | none => .error ("Failed to read chunk file").toList

/-- The per-chunk loop of `reassemble_file`: load, validate, extract,
decrypt, append. -/
def reassembleGo (hashFn : List Nat → List Nat)
    (decCore : List Nat → List Nat → List Nat → Option (List Nat))
    (store : List (List Char × List Nat)) (key : List Nat) :
    List ChunkInfo → Except (List Char) (List Nat)
  | [] => .ok []
  | ci :: rest =>
    match load_chunk store ci.hash with
    | .error e => .error e
    | .ok chunk_data =>
      if validate_chunk hashFn chunk_data = false then
        .error ("Chunk validation failed").toList
      else
        match extract_metadata chunk_data with
        | .error e => .error e
        | .ok md =>
          match extract_encrypted_data chunk_data with
          | .error e => .error e
          | .ok encrypted_data =>
            match decrypt_chunk decCore key encrypted_data md.iv with
            | .error e => .error e
            | .ok plain =>
              match reassembleGo hashFn decCore store key rest with
              | .error e => .error e
              | .ok out => .ok (plain ++ out)

/-- Reassembly (`reassemble_file`), returning the bytes written to the
output file.  Chunks are first sorted by index (`sort_by_key` is
stable; insertion sort models it). -/
def reassemble_file (hashFn : List Nat → List Nat)
    (decCore : List Nat → List Nat → List Nat → Option (List Nat))
    (store : List (List Char × List Nat)) (chunks : List ChunkInfo)
    (key : List Nat) : Except (List Char) (List Nat) :=
  reassembleGo hashFn decCore store key
    (List.insertionSort (fun a b => a.index ≤ b.index) chunks)

theorem padTo_length (t : Nat) (l : List Nat) :
    (padTo t l).length = max t l.length := by
  simp [padTo]
  omega

end Chunks

namespace Chunks

open Chiral

theorem reassembleGo_validate_fail (hashFn : List Nat → List Nat)
    (decCore : List Nat → List Nat → List Nat → Option (List Nat))
    (store : List (List Char × List Nat)) (key : List Nat)
    (ci : ChunkInfo) (rest : List ChunkInfo) (chunk_data : List Nat)
    (hload : load_chunk store ci.hash = .ok chunk_data)
    (hval : validate_chunk hashFn chunk_data = false) :
    reassembleGo hashFn decCore store key (ci :: rest) =
      .error ("Chunk validation failed").toList := by
  simp only [reassembleGo, hload]
  rw [hval]
  rfl

theorem frameBody_length_ge (h : ChunkHeader) (md : ChunkMetadata)
    (encrypted_data : List Nat) :
    HEADER_SIZE + METADATA_SIZE ≤ (frameBody h md encrypted_data).length := by
  simp only [frameBody, List.length_append, padTo_length, HEADER_SIZE,
    METADATA_SIZE]
  omega

/-- A 32-byte stand-in digest used by the C2 witness: 31 zero bytes
followed by the byte sum modulo 256, so any single-byte change of the
input changes the digest. -/
def sumHash32 (l : List Nat) : List Nat :=
  List.replicate 31 0 ++ [l.foldr (· + ·) 0 % 256]

theorem sumHash32_length (l : List Nat) : (sumHash32 l).length = 32 := by
  simp [sumHash32]

theorem sumHash32_bytes (l : List Nat) : ∀ b ∈ sumHash32 l, b < 256 := by
  intro b hb
  simp only [sumHash32, List.mem_append, List.mem_singleton] at hb
  rcases hb with hrep | hlast
  · have := List.eq_of_mem_replicate hrep
    omega
  · rw [hlast]
    exact Nat.mod_lt _ (by omega)

/-- Header used by the C2 witness frame. -/
def witnessHeader : ChunkHeader :=
  ⟨CHUNK_MAGIC, 1, 0, 1, List.replicate 32 0, List.replicate 32 0⟩

/-- Metadata used by the C2 witness frame. -/
def witnessMetadata : ChunkMetadata :=
  ⟨List.replicate 16 0, 0, 1, 1, 0⟩

/-- Chunk record used by the C2 witness. -/
def witnessChunkInfo : ChunkInfo :=
  ⟨0, ("ab").toList, 1, 367, 1, ("cd").toList⟩

/-- C2: Every frame produced by `create_chunk_file` ends in the 32-byte
SHA-256 of all preceding bytes and passes `validate_chunk`; flipping
any single byte of the frame body (any position other than the trailing
checksum) to a different value makes `validate_chunk` reject the frame,
and `reassemble_file` over a chunk list referencing the tampered frame
fails with the chunk-validation integrity error.  The flip clause
carries the SHA-256 contract that the two distinct bodies do not
collide. -/
theorem frame_checksum_and_tamper_detection (hashFn : List Nat → List Nat)
    (hlen : ∀ d, (hashFn d).length = 32)
    (hbyte : ∀ d, ∀ b ∈ hashFn d, b < 256)
    (h : ChunkHeader) (md : ChunkMetadata) (encrypted_data : List Nat)
    (decCore : List Nat → List Nat → List Nat → Option (List Nat))
    (key : List Nat) (info : ChunkInfo) :
    (create_chunk_file hashFn h md encrypted_data).drop
        ((create_chunk_file hashFn h md encrypted_data).length - CHECKSUM_SIZE) =
      hashFn ((create_chunk_file hashFn h md encrypted_data).take
        ((create_chunk_file hashFn h md encrypted_data).length - CHECKSUM_SIZE)) ∧
    validate_chunk hashFn (create_chunk_file hashFn h md encrypted_data) = true ∧
    (∀ i v,
      i < (create_chunk_file hashFn h md encrypted_data).length - CHECKSUM_SIZE →
      (create_chunk_file hashFn h md encrypted_data).getD i 0 ≠ v →
      hashFn (((create_chunk_file hashFn h md encrypted_data).set i v).take
          ((create_chunk_file hashFn h md encrypted_data).length - CHECKSUM_SIZE)) ≠
        hashFn ((create_chunk_file hashFn h md encrypted_data).take
          ((create_chunk_file hashFn h md encrypted_data).length - CHECKSUM_SIZE)) →
      validate_chunk hashFn
        ((create_chunk_file hashFn h md encrypted_data).set i v) = false ∧
      reassemble_file hashFn decCore
        [(info.hash, (create_chunk_file hashFn h md encrypted_data).set i v)]
        [info] key = .error ("Chunk validation failed").toList) := by
  have hcs : hexDecode (hash_chunk hashFn (frameBody h md encrypted_data)) =
      hashFn (frameBody h md encrypted_data) :=
    hexDecode_hexEncode (hbyte _)
  have hF : create_chunk_file hashFn h md encrypted_data =
      frameBody h md encrypted_data ++ hashFn (frameBody h md encrypted_data) := by
    rw [create_chunk_file, hcs]
  have hlenB : HEADER_SIZE + METADATA_SIZE ≤ (frameBody h md encrypted_data).length :=
    frameBody_length_ge h md encrypted_data
  have hckl : (hashFn (frameBody h md encrypted_data)).length = 32 := hlen _
  have hFlen : (create_chunk_file hashFn h md encrypted_data).length =
      (frameBody h md encrypted_data).length + 32 := by
    rw [hF, List.length_append, hckl]
  have hsub : (create_chunk_file hashFn h md encrypted_data).length - CHECKSUM_SIZE =
      (frameBody h md encrypted_data).length := by
    rw [hFlen]
    simp only [CHECKSUM_SIZE]
    omega
  have htake : (create_chunk_file hashFn h md encrypted_data).take
      ((create_chunk_file hashFn h md encrypted_data).length - CHECKSUM_SIZE) =
      frameBody h md encrypted_data := by
    rw [hsub, hF, List.take_left]
  have hdrop : (create_chunk_file hashFn h md encrypted_data).drop
      ((create_chunk_file hashFn h md encrypted_data).length - CHECKSUM_SIZE) =
      hashFn (frameBody h md encrypted_data) := by
    rw [hsub, hF, List.drop_left]
  refine ⟨?_, ?_, ?_⟩
  · rw [htake, hdrop]
  · simp only [validate_chunk]
    rw [if_neg (by rw [hFlen]; simp only [HEADER_SIZE, METADATA_SIZE, CHECKSUM_SIZE] at hlenB ⊢; omega)]
    simp only [decide_eq_true_eq]
    rw [htake, hdrop, hcs]
  · intro i v hi hflip hne
    have hiB : i < (frameBody h md encrypted_data).length := by rwa [hsub] at hi
    have hset : (create_chunk_file hashFn h md encrypted_data).set i v =
        (frameBody h md encrypted_data).set i v ++
          hashFn (frameBody h md encrypted_data) := by
      rw [hF]
      exact List.set_append_left i v hiB
    have hsetlen : ((frameBody h md encrypted_data).set i v).length =
        (frameBody h md encrypted_data).length := by
      simp
    have htake' : ((create_chunk_file hashFn h md encrypted_data).set i v).take
        ((create_chunk_file hashFn h md encrypted_data).length - CHECKSUM_SIZE) =
        (frameBody h md encrypted_data).set i v := by
      rw [hsub, hset, List.take_left' hsetlen]
    have hne' : hashFn ((frameBody h md encrypted_data).set i v) ≠
        hashFn (frameBody h md encrypted_data) := by
      rw [htake', htake] at hne
      exact hne
    have hvf : validate_chunk hashFn
        ((create_chunk_file hashFn h md encrypted_data).set i v) = false := by
      simp only [validate_chunk]
      rw [if_neg (by
        simp only [List.length_set]
        rw [hFlen]
        simp only [HEADER_SIZE, METADATA_SIZE, CHECKSUM_SIZE] at hlenB ⊢
        omega)]
      apply decide_eq_false
      intro heq
      have hd' : ((create_chunk_file hashFn h md encrypted_data).set i v).drop
          (((create_chunk_file hashFn h md encrypted_data).set i v).length - CHECKSUM_SIZE) =
          hashFn (frameBody h md encrypted_data) := by
        have : ((create_chunk_file hashFn h md encrypted_data).set i v).length =
            (create_chunk_file hashFn h md encrypted_data).length := by simp
        rw [this, hsub, hset, List.drop_left' hsetlen]
      have ht' : ((create_chunk_file hashFn h md encrypted_data).set i v).take
          (((create_chunk_file hashFn h md encrypted_data).set i v).length - CHECKSUM_SIZE) =
          (frameBody h md encrypted_data).set i v := by
        have : ((create_chunk_file hashFn h md encrypted_data).set i v).length =
            (create_chunk_file hashFn h md encrypted_data).length := by simp
        rw [this, hsub, hset, List.take_left' hsetlen]
      rw [hd', ht'] at heq
      have hcs2 : hexDecode (hash_chunk hashFn
          ((frameBody h md encrypted_data).set i v)) =
          hashFn ((frameBody h md encrypted_data).set i v) :=
        hexDecode_hexEncode (hbyte _)
      rw [hcs2] at heq
      exact hne' heq.symm
    refine ⟨hvf, ?_⟩
    rw [reassemble_file]
    have hsort : List.insertionSort
        (fun a b : ChunkInfo => a.index ≤ b.index) [info] = [info] := by
      simp [List.insertionSort, List.orderedInsert]
    rw [hsort]
    exact reassembleGo_validate_fail hashFn decCore _ key info [] _
      (by simp [load_chunk, lookupA_cons_self]) hvf

set_option maxRecDepth 10000 in
set_option maxHeartbeats 1000000 in
/-- Closed instance of C2: a concrete one-chunk frame with byte 0 (the
first magic byte, value 67) flipped to 68 fails validation and makes
reassembly fail with the integrity error; the sum digest discharges the
no-collision contract for this flip. -/
theorem frame_checksum_and_tamper_detection_witness :
    validate_chunk sumHash32
      ((create_chunk_file sumHash32 witnessHeader witnessMetadata [5]).set 0 68) = false ∧
    reassemble_file sumHash32 (fun _ _ _ => none)
      [(witnessChunkInfo.hash,
        (create_chunk_file sumHash32 witnessHeader witnessMetadata [5]).set 0 68)]
      [witnessChunkInfo] [] = .error ("Chunk validation failed").toList :=
  (frame_checksum_and_tamper_detection sumHash32 sumHash32_length sumHash32_bytes
    witnessHeader witnessMetadata [5] (fun _ _ _ => none) [] witnessChunkInfo).2.2 0 68
    (by decide) (by decide) (by decide)

end Chunks

namespace Reputation

/-!
Embedding of `src/src-tauri/src/reputation.rs`.  Floating-point scores
are modelled over the rationals; the time-decay weight
`0.5^(age_days/half_life_days)` depends on the current wall clock and a
real-valued power, so it is abstracted as a function parameter
`decayW issued_at half_life`, used exactly where the source calls
`calculate_time_decay_weight` (only when `decay_half_life > 0`). -/

/-- Verdict outcome (`VerdictOutcome`). -/
inductive VerdictOutcome where
  | good
  | disputed
  | bad
deriving DecidableEq, Repr

/-- Transaction verdict (`TransactionVerdict`). -/
structure TransactionVerdict where
  target_id : List Char
  tx_hash : Option (List Char)
  outcome : VerdictOutcome
  details : Option (List Char)
  metric : Option (List Char)
  issued_at : Nat
  issuer_id : List Char
  issuer_seq_no : Nat
  issuer_sig : List Char
  tx_receipt : Option (List Char)
  evidence_blobs : Option (List (List Char))
deriving DecidableEq, Repr

/-- Per-peer verdict container (`ReputationRecord`). -/
structure ReputationRecord where
  target_id : List Char
  verdicts : List TransactionVerdict
  last_updated : Nat
deriving DecidableEq, Repr

/-- Appending a verdict with `(issuer_id, issuer_seq_no)` de-duplication
(`ReputationRecord::add_verdict`); `now` is the wall clock read for
`last_updated`. -/
def add_verdict (now : Nat) (r : ReputationRecord)
    (verdict : TransactionVerdict) : ReputationRecord :=
  let is_duplicate := r.verdicts.any (fun v =>
    v.issuer_id == verdict.issuer_id && v.issuer_seq_no == verdict.issuer_seq_no)
  if is_duplicate then r
  else { r with verdicts := r.verdicts ++ [verdict], last_updated := now }

/-- Reputation configuration (`ReputationConfig`). -/
structure ReputationConfig where
  confirmation_threshold : Nat
  confirmation_timeout : Nat
  maturity_threshold : Nat
  decay_half_life : Nat
  retention_period : Nat
  max_verdict_size : Nat
  cache_ttl : Nat
  blacklist_mode : List Char
  blacklist_auto_enabled : Bool
  blacklist_score_threshold : ℚ
  blacklist_bad_verdicts_threshold : Nat
  blacklist_retention : Nat
  payment_deadline_default : Nat
  payment_grace_period : Nat
  min_balance_multiplier : ℚ
deriving DecidableEq, Repr

/-- The source's `Default` instance for `ReputationConfig`. -/
def defaultConfig : ReputationConfig :=
  { confirmation_threshold := 12
    confirmation_timeout := 3600
    maturity_threshold := 100
    decay_half_life := 90
    retention_period := 90
    max_verdict_size := 1024
    cache_ttl := 600
    blacklist_mode := ("hybrid").toList
    blacklist_auto_enabled := true
    blacklist_score_threshold := 1 / 5
    blacklist_bad_verdicts_threshold := 3
    blacklist_retention := 30
    payment_deadline_default := 3600
    payment_grace_period := 1800
    min_balance_multiplier := 6 / 5 }

/-- Per-verdict value: good, disputed, bad map to 1, 1/2, 0. -/
def outcomeValue : VerdictOutcome → ℚ
  | .good => 1
  | .disputed => 1 / 2
  | .bad => 0

/-- Per-verdict weight: the decay weight when a half-life is configured,
1 otherwise. -/
def verdictWeight (decayW : Nat → Nat → ℚ) (config : ReputationConfig)
    (v : TransactionVerdict) : ℚ :=
  if 0 < config.decay_half_life then decayW v.issued_at config.decay_half_life
  else 1

/-- Weighted reputation score (`calculate_transaction_score`): the loop
accumulates `weighted_sum` and `total_weight` and divides, returning 0
for an empty list or a non-positive total weight. -/
def calculate_transaction_score (decayW : Nat → Nat → ℚ)
    (verdicts : List TransactionVerdict) (config : ReputationConfig) : ℚ :=
  if verdicts = [] then 0
  else
    let acc := verdicts.foldl (fun (a : ℚ × ℚ) v =>
      (a.1 + outcomeValue v.outcome * verdictWeight decayW config v,
       a.2 + verdictWeight decayW config v)) (0, 0)
    if 0 < acc.2 then acc.1 / acc.2 else 0

/-- Trust level (`TrustLevel`). -/
inductive TrustLevel where
  | unknown
  | low
  | medium
  | high
  | trusted
deriving DecidableEq, Repr

/-- Trust band of a score (`TrustLevel::from_score`). -/
def TrustLevel.from_score (score : ℚ) : TrustLevel :=
  if 4 / 5 ≤ score then .trusted
  else if 3 / 5 ≤ score then .high
  else if 2 / 5 ≤ score then .medium
  else if 1 / 5 ≤ score then .low
  else .unknown

/-- A verdict with the given outcome and issue time, as in the
verdict-aggregation scenario. -/
def mkVerdict (outcome : VerdictOutcome) (issued_at : Nat)
    (issuer : List Char) (seq : Nat) : TransactionVerdict :=
  ⟨("P1").toList, none, outcome, none, none, issued_at, issuer, seq,
    ("sig").toList, none, none⟩

end Reputation

namespace Reputation

theorem score_foldl_sum (decayW : Nat → Nat → ℚ) (config : ReputationConfig) :
    ∀ (l : List TransactionVerdict) (x y : ℚ),
      l.foldl (fun (a : ℚ × ℚ) v =>
        (a.1 + outcomeValue v.outcome * verdictWeight decayW config v,
         a.2 + verdictWeight decayW config v)) (x, y) =
      (x + (l.map (fun v =>
        outcomeValue v.outcome * verdictWeight decayW config v)).sum,
       y + (l.map (verdictWeight decayW config)).sum) := by
  intro l
  induction l with
  | nil => intro x y; simp
  | cons v rest ih =>
    intro x y
    simp only [List.foldl_cons, ih, List.map_cons, List.sum_cons]
    rw [Prod.mk.injEq]
    constructor <;> ring

/-- C4: For every verdict list, `calculate_transaction_score` equals the
sum of value times weight divided by the sum of weights (0 when the
total weight is not positive, in particular when it is 0), where value
maps good, disputed, bad to 1, 1/2, 0 and the weight is the decay
weight when a half-life is configured and exactly 1 when
`decay_half_life = 0`; concretely, verdicts good, good, bad under
half-life 0 score 2/3, whose trust level is High. -/
theorem score_weighted_average (decayW : Nat → Nat → ℚ)
    (verdicts : List TransactionVerdict) (config : ReputationConfig) :
    calculate_transaction_score decayW verdicts config =
      (if 0 < (verdicts.map (verdictWeight decayW config)).sum then
        (verdicts.map (fun v =>
          outcomeValue v.outcome * verdictWeight decayW config v)).sum /
          (verdicts.map (verdictWeight decayW config)).sum
      else 0) ∧
    (config.decay_half_life = 0 → ∀ v, verdictWeight decayW config v = 1) ∧
    calculate_transaction_score decayW
      [mkVerdict .good 1000 ("issuer1").toList 1,
       mkVerdict .good 2000 ("issuer2").toList 1,
       mkVerdict .bad 3000 ("issuer3").toList 1]
      { defaultConfig with decay_half_life := 0 } = 2 / 3 ∧
    TrustLevel.from_score (2 / 3) = .high := by
  refine ⟨?_, ?_, ?_, ?_⟩
  · rw [calculate_transaction_score]
    by_cases hv : verdicts = []
    · subst hv; simp
    · rw [if_neg hv]
      simp only [score_foldl_sum decayW config, zero_add]
  · intro h0 v
    simp [verdictWeight, h0]
  · rw [calculate_transaction_score]
    rw [if_neg (by simp)]
    norm_num [score_foldl_sum, mkVerdict, outcomeValue, verdictWeight,
      defaultConfig]
  · rw [TrustLevel.from_score]
    rw [if_neg (by norm_num), if_pos (by norm_num)]

/-- Closed instance of C4: the three-verdict scenario evaluated with a
concrete (unused, since half-life is 0) decay function yields 2/3. -/
theorem score_weighted_average_witness :
    calculate_transaction_score (fun _ _ => 1)
      [mkVerdict .good 1000 ("issuer1").toList 1,
       mkVerdict .good 2000 ("issuer2").toList 1,
       mkVerdict .bad 3000 ("issuer3").toList 1]
      { defaultConfig with decay_half_life := 0 } = 2 / 3 :=
  (score_weighted_average (fun _ _ => 1) [] defaultConfig).2.2.1

/-- C5: Adding any verdict to a record twice grows the verdict list by
at most one: the second `add_verdict` finds the `(issuer_id,
issuer_seq_no)` pair already present and returns the record unchanged,
and a verdict whose pair is already present in the original record is
discarded outright. -/
theorem add_verdict_dedup (now1 now2 : Nat) (r : ReputationRecord)
    (v : TransactionVerdict) :
    add_verdict now2 (add_verdict now1 r v) v = add_verdict now1 r v ∧
    (add_verdict now1 r v).verdicts.length ≤ r.verdicts.length + 1 ∧
    (add_verdict now2 (add_verdict now1 r v) v).verdicts.length ≤
      r.verdicts.length + 1 ∧
    ((r.verdicts.any (fun w =>
        w.issuer_id == v.issuer_id && w.issuer_seq_no == v.issuer_seq_no)) = true →
      add_verdict now1 r v = r) := by
  by_cases hdup : (r.verdicts.any (fun w =>
      w.issuer_id == v.issuer_id && w.issuer_seq_no == v.issuer_seq_no)) = true
  · have h1 : add_verdict now1 r v = r := by
      simp only [add_verdict]
      rw [if_pos hdup]
    have h2 : add_verdict now2 (add_verdict now1 r v) v = add_verdict now1 r v := by
      rw [h1]
      simp only [add_verdict]
      rw [if_pos hdup]
    refine ⟨h2, ?_, ?_, fun _ => h1⟩
    · rw [h1]; omega
    · rw [h2, h1]; omega
  · have h1 : add_verdict now1 r v =
        { r with verdicts := r.verdicts ++ [v], last_updated := now1 } := by
      simp only [add_verdict]
      rw [if_neg hdup]
    have hself : ((r.verdicts ++ [v]).any (fun w =>
        w.issuer_id == v.issuer_id && w.issuer_seq_no == v.issuer_seq_no)) = true := by
      rw [List.any_append]
      apply Bool.or_eq_true_iff.mpr
      right
      simp [List.any_cons]
    have h2 : add_verdict now2 (add_verdict now1 r v) v = add_verdict now1 r v := by
      rw [h1]
      simp only [add_verdict]
      rw [if_pos hself]
    refine ⟨h2, ?_, ?_, fun hd => absurd hd hdup⟩
    · rw [h1]; simp
    · rw [h2, h1]; simp

/-- Closed instance of C5: adding the same verdict twice to an empty
record leaves the record of the first add unchanged. -/
theorem add_verdict_dedup_witness :
    add_verdict 2
      (add_verdict 1 ⟨("P1").toList, [], 0⟩
        (mkVerdict .good 1000 ("i").toList 1))
      (mkVerdict .good 1000 ("i").toList 1) =
    add_verdict 1 ⟨("P1").toList, [], 0⟩
      (mkVerdict .good 1000 ("i").toList 1) :=
  (add_verdict_dedup 1 2 ⟨("P1").toList, [], 0⟩
    (mkVerdict .good 1000 ("i").toList 1)).1

end Reputation

namespace Dht

/-!
Embedding of the bootstrap-throttling logic of `run_dht_node` and the
address sanitation of `handle_identify_event` in
`src/src-tauri/src/dht.rs`.  The event loop is modelled as a state
machine over the fields it actually reads and writes: the connected-peer
count, the failure counters, the time of the last bootstrap attempt, and
the current tick-interval length (`bootstrap_interval`, recreated with a
new period in the skip branch).  A `tick now` event is one firing of the
periodic timer at wall-clock second `now`. -/

def MAX_CONSECUTIVE_FAILURES : Nat := 5

def MAX_BOOTSTRAP_INTERVAL : Nat := 300

def MIN_PEER_COUNT_FOR_BOOTSTRAP : Nat := 2

/-- The node-task state read and written by the bootstrap logic. -/
structure NodeState where
  peers : Nat
  consecutive_bootstrap_failures : Nat
  bootstrap_failures : Nat
  last_bootstrap : Option Nat
  interval_secs : Nat
deriving DecidableEq, Repr

/-- State at task start: a 30-second interval, no failures, no peers. -/
def initialState : NodeState :=
  { peers := 0
    consecutive_bootstrap_failures := 0
    bootstrap_failures := 0
    last_bootstrap := none
    interval_secs := 30 }

/-- The three-predicate bootstrap gate computed on each tick: fewer than
2 peers, fewer than 5 consecutive failures, and at least 30 s since the
last bootstrap attempt (`elapsed()` reads 0 when the clock ran
backwards, as `unwrap_or_default` does). -/
def should_bootstrap (s : NodeState) (now : Nat) : Bool :=
  let has_few_peers := s.peers < MIN_PEER_COUNT_FOR_BOOTSTRAP
  let not_too_many_failures :=
    s.consecutive_bootstrap_failures < MAX_CONSECUTIVE_FAILURES
  let enough_time_passed :=
    match s.last_bootstrap with
    | some last => 30 ≤ now - last
    | none => true
  has_few_peers && not_too_many_failures && enough_time_passed

/-- Backoff interval installed on a skipped tick:
`min(30 * 2^min(failures, 4), 300)` seconds. -/
def backoff_interval (failures : Nat) : Nat :=
  min (30 * 2 ^ min failures 4) MAX_BOOTSTRAP_INTERVAL

/-- One firing of the periodic bootstrap timer: bootstrap when the gate
holds (recording the attempt time), otherwise re-create the interval
with the backed-off period when there are consecutive failures.  The
returned flag says whether a bootstrap was performed. -/
def tick_step (s : NodeState) (now : Nat) : NodeState × Bool :=
  if should_bootstrap s now then
    ({ s with last_bootstrap := some now }, true)
  else
    (if 0 < s.consecutive_bootstrap_failures then
      { s with interval_secs := backoff_interval s.consecutive_bootstrap_failures }
    else s, false)

/-- `ConnectionEstablished`: the peer joins the connected set and, since
the set is then non-empty, the consecutive-failure counter resets. -/
def connection_established (s : NodeState) : NodeState :=
  { s with peers := s.peers + 1, consecutive_bootstrap_failures := 0 }

/-- `ConnectionClosed`: the peer leaves the connected set. -/
def connection_closed (s : NodeState) : NodeState :=
  { s with peers := s.peers - 1 }

/-- `OutgoingConnectionError`: both failure counters grow; a timeout
error increments the consecutive counter a second time. -/
def outgoing_connection_error (is_timeout : Bool) (s : NodeState) : NodeState :=
  let s1 := { s with
    bootstrap_failures := s.bootstrap_failures + 1,
    consecutive_bootstrap_failures := s.consecutive_bootstrap_failures + 1 }
  if is_timeout then
    { s1 with consecutive_bootstrap_failures :=
        s1.consecutive_bootstrap_failures + 1 }
  else s1

/-- Events consumed by the node task, restricted to those that touch the
bootstrap state. -/
inductive NodeEvent where
  | tick (now : Nat)
  | connEstablished
  | connClosed
  | connError (is_timeout : Bool)
deriving DecidableEq, Repr

/-- One step of the node task. -/
def step (s : NodeState) : NodeEvent → NodeState
  | .tick now => (tick_step s now).1
  | .connEstablished => connection_established s
  | .connClosed => connection_closed s
  | .connError t => outgoing_connection_error t s

/-- A run of the node task from the initial state. -/
def run (events : List NodeEvent) : NodeState :=
  events.foldl step initialState

/-!
Address sanitation (`is_address_likely_reachable` and
`handle_identify_event`).  A multiaddress is its list of protocol
components; only IPv4 components are inspected. -/

/-- A multiaddress protocol component. -/
inductive MultiaddrComponent where
  | ip4 (o1 o2 o3 o4 : Nat)
  | other (tag : Nat)
deriving DecidableEq, Repr

abbrev Multiaddr := List MultiaddrComponent

/-- Rust `Ipv4Addr::is_private`: 10/8, 172.16/12, 192.168/16. -/
def ip4_is_private (o1 o2 : Nat) : Bool :=
  o1 == 10 || (o1 == 172 && (16 ≤ o2 && o2 ≤ 31)) || (o1 == 192 && o2 == 168)

/-- Rust `Ipv4Addr::is_loopback`: 127/8. -/
def ip4_is_loopback (o1 : Nat) : Bool :=
  o1 == 127

/-- Rust `Ipv4Addr::is_link_local`: 169.254/16. -/
def ip4_is_link_local (o1 o2 : Nat) : Bool :=
  o1 == 169 && o2 == 254

/-- The designated blocklisted literal `176.183.245.3`. -/
def is_blocked_ip (o1 o2 o3 o4 : Nat) : Bool :=
  o1 == 176 && o2 == 183 && o3 == 245 && o4 == 3

/-- Address filter (`is_address_likely_reachable`): walk the
components; an IPv4 component that is the blocklisted literal, or is
private, loopback or link-local, rejects the address.  Note the filter
is applied unconditionally — the source has no bootstrap-configuration
parameter here. -/
def is_address_likely_reachable : Multiaddr → Bool
  | [] => true
  | .ip4 o1 o2 o3 o4 :: rest =>
    if is_blocked_ip o1 o2 o3 o4 then false
    else if ip4_is_private o1 o2 || ip4_is_loopback o1 || ip4_is_link_local o1 o2 then
      false
    else is_address_likely_reachable rest
  | .other _ :: rest => is_address_likely_reachable rest

/-- The addresses `handle_identify_event` adds to the Kademlia routing
table for an identified peer: exactly the advertised addresses passing
the filter. -/
def identify_added_addrs (listen_addrs : List Multiaddr) : List Multiaddr :=
  listen_addrs.filter is_address_likely_reachable

/-- Formalisation of C9's wording (spec §address sanitation): an address
is added only if it is not the designated blocklisted literal, and not
private, loopback or link-local WHEN the local node is configured as a
bootstrap; every other identified address is added. -/
def claim_allows_address (is_bootstrap : Bool) (addr : Multiaddr) : Bool :=
  (!(addr.any (fun c =>
      match c with
      | .ip4 o1 o2 o3 o4 => is_blocked_ip o1 o2 o3 o4
      | .other _ => false))) &&
  (!is_bootstrap ||
    !(addr.any (fun c =>
      match c with
      | .ip4 o1 o2 _ _ =>
        ip4_is_private o1 o2 || ip4_is_loopback o1 || ip4_is_link_local o1 o2
      | .other _ => false)))

end Dht

namespace Dht

/-- C6 counterexample: the claim says any successful connection
"restores the 30 s cadence".  In the reachable trace below — bootstrap
at t=100, one connection error, a skipped tick at t=110 installing the
backed-off 60 s interval, then a successful connection — the connection
resets the failure counter but the tick interval stays at 60 s: the
code never re-creates the interval on success. -/
theorem bootstrap_cadence_not_restored :
    (run [.tick 100, .connError false, .tick 110, .connEstablished]).consecutive_bootstrap_failures
      = 0 ∧
    (run [.tick 100, .connError false, .tick 110, .connEstablished]).interval_secs = 60 ∧
    ¬((run [.tick 100, .connError false, .tick 110, .connEstablished]).interval_secs = 30) := by
  decide

/-- C6 amended: a periodic tick performs a bootstrap exactly when peer
count < 2, consecutive failures < 5, and at least 30 s have passed
since the last bootstrap attempt (so attempts are spaced at least 30 s
apart); a skipped tick with k > 0 consecutive failures re-creates the
tick interval with period min(30·2^min(k,4), 300) s; a successful
connection resets the failure counter to 0 but leaves the tick interval
at its current (possibly backed-off) value. -/
theorem bootstrap_throttling (s : NodeState) (now : Nat) :
    ((tick_step s now).2 = true ↔
      (s.peers < 2 ∧ s.consecutive_bootstrap_failures < 5 ∧
        ∀ t, s.last_bootstrap = some t → 30 ≤ now - t)) ∧
    ((tick_step s now).2 = true →
      (tick_step s now).1.last_bootstrap = some now) ∧
    ((tick_step s now).2 = false → 0 < s.consecutive_bootstrap_failures →
      (tick_step s now).1.interval_secs =
        min (30 * 2 ^ min s.consecutive_bootstrap_failures 4) 300) ∧
    (connection_established s).consecutive_bootstrap_failures = 0 ∧
    (connection_established s).interval_secs = s.interval_secs := by
  have hsb_iff : should_bootstrap s now = true ↔
      (s.peers < 2 ∧ s.consecutive_bootstrap_failures < 5 ∧
        ∀ t, s.last_bootstrap = some t → 30 ≤ now - t) := by
    rw [should_bootstrap]
    cases hlb : s.last_bootstrap with
    | none => simp [MIN_PEER_COUNT_FOR_BOOTSTRAP, MAX_CONSECUTIVE_FAILURES]
    | some t =>
      simp [MIN_PEER_COUNT_FOR_BOOTSTRAP, MAX_CONSECUTIVE_FAILURES, and_assoc]
  refine ⟨?_, ?_, ?_, rfl, rfl⟩
  · rw [← hsb_iff, tick_step]
    by_cases hsb : should_bootstrap s now = true
    · simp [hsb]
    · simp [hsb]
  · intro h2
    rw [tick_step] at h2 ⊢
    by_cases hsb : should_bootstrap s now = true
    · rw [if_pos hsb]
    · rw [if_neg hsb] at h2
      simp at h2
  · intro h2 hcf
    rw [tick_step] at h2 ⊢
    by_cases hsb : should_bootstrap s now = true
    · rw [if_pos hsb] at h2
      simp at h2
    · rw [if_neg hsb]
      show (if 0 < s.consecutive_bootstrap_failures then
          { s with interval_secs :=
              backoff_interval s.consecutive_bootstrap_failures }
        else s).interval_secs = _
      rw [if_pos hcf]
      rfl

/-- Closed instance of the amended C6 theorem: a skipped tick (10 s
after the last attempt) with one consecutive failure installs the 60 s
interval. -/
theorem bootstrap_throttling_witness :
    (tick_step ⟨0, 1, 1, some 100, 30⟩ 110).1.interval_secs =
      min (30 * 2 ^ min 1 4) 300 :=
  (bootstrap_throttling ⟨0, 1, 1, some 100, 30⟩ 110).2.2.1 (by decide) (by decide)

theorem reachable_eq_all (addr : Multiaddr) :
    is_address_likely_reachable addr =
      addr.all (fun c =>
        match c with
        | .ip4 o1 o2 o3 o4 =>
          !(is_blocked_ip o1 o2 o3 o4 ||
            (ip4_is_private o1 o2 || ip4_is_loopback o1 ||
              ip4_is_link_local o1 o2))
        | .other _ => true) := by
  induction addr with
  | nil => rfl
  | cons c rest ih =>
    cases c with
    | ip4 o1 o2 o3 o4 =>
      simp only [is_address_likely_reachable, List.all_cons, ih]
      by_cases hb : is_blocked_ip o1 o2 o3 o4 = true
      · simp [hb]
      · have hb' : is_blocked_ip o1 o2 o3 o4 = false := by
          cases h : is_blocked_ip o1 o2 o3 o4
          · rfl
          · exact absurd h hb
        by_cases hp : (ip4_is_private o1 o2 || ip4_is_loopback o1 ||
            ip4_is_link_local o1 o2) = true
        · simp [hb', hp]
        · have hp' : (ip4_is_private o1 o2 || ip4_is_loopback o1 ||
              ip4_is_link_local o1 o2) = false := by
            cases h : (ip4_is_private o1 o2 || ip4_is_loopback o1 ||
                ip4_is_link_local o1 o2)
            · rfl
            · exact absurd h hp
          simp [hb', hp']
    | other t => simp [is_address_likely_reachable, List.all_cons, ih]

/-- C9 counterexample: the claim predicts that when the local node is
NOT configured as a bootstrap, a private advertised address (here
192.168.1.1) is added to the routing table; the code's filter rejects
private addresses unconditionally, so the address is not added. -/
theorem address_filter_counterexample :
    claim_allows_address false [.ip4 192 168 1 1] = true ∧
    is_address_likely_reachable [.ip4 192 168 1 1] = false ∧
    identify_added_addrs [[.ip4 192 168 1 1]] = [] := by
  decide

/-- C9 amended: when a peer is identified, an advertised address is
added to the routing table if and only if none of its IPv4 components
is the designated blocklisted literal, private, loopback, or
link-local — the private/loopback/link-local filter applies
unconditionally, regardless of any bootstrap configuration. -/
theorem identify_address_filter (addrs : List Multiaddr) (addr : Multiaddr) :
    (addr ∈ identify_added_addrs addrs ↔
      addr ∈ addrs ∧ is_address_likely_reachable addr = true) ∧
    (is_address_likely_reachable addr = true ↔
      ∀ o1 o2 o3 o4, MultiaddrComponent.ip4 o1 o2 o3 o4 ∈ addr →
        is_blocked_ip o1 o2 o3 o4 = false ∧
        ip4_is_private o1 o2 = false ∧
        ip4_is_loopback o1 = false ∧
        ip4_is_link_local o1 o2 = false) := by
  constructor
  · simp [identify_added_addrs, List.mem_filter]
  · rw [reachable_eq_all, List.all_eq_true]
    constructor
    · intro hall o1 o2 o3 o4 hmem
      have h := hall _ hmem
      simp only [Bool.not_eq_true', Bool.or_eq_false_iff] at h
      tauto
    · intro h c hmem
      cases c with
      | ip4 o1 o2 o3 o4 =>
        have h4 := h o1 o2 o3 o4 hmem
        simp [h4.1, h4.2.1, h4.2.2.1, h4.2.2.2]
      | other t => simp

/-- Closed instance of the amended C9 theorem: a public address passes
the filter. -/
theorem identify_address_filter_witness :
    is_address_likely_reachable [MultiaddrComponent.ip4 8 8 8 8] = true :=
  (identify_address_filter [] [MultiaddrComponent.ip4 8 8 8 8]).2.mpr
    (by
      intro o1 o2 o3 o4 hmem
      simp only [List.mem_singleton, MultiaddrComponent.ip4.injEq] at hmem
      obtain ⟨h1, h2, h3, h4⟩ := hmem
      subst h1
      subst h2
      subst h3
      subst h4
      decide)

end Dht

namespace StorageNode

/-!
Embedding of `src/src-tauri/src/storage_node.rs` (`StorageNodeService`).
The in-memory chunk metadata map and the on-disk chunk directory are
association lists (insert replaces, as `HashMap::insert` and
`tokio::fs::write` do); `used_capacity` is a natural number, whose
subtraction is exactly the source's `saturating_sub`. -/

open Chiral

/-- Upload request (`ChunkUploadRequest`). -/
structure ChunkUploadRequest where
  chunk_hash : List Char
  chunk_data : List Nat
  file_hash : List Char
  chunk_index : Nat
  payment_tx : Option (List Char)
deriving DecidableEq, Repr

/-- Upload response (`ChunkUploadResponse`). -/
structure ChunkUploadResponse where
  success : Bool
  chunk_hash : List Char
  storage_proof : List Char
  node_id : List Char
deriving DecidableEq, Repr

/-- Stored-chunk metadata (`ChunkMetadata` in storage_node.rs). -/
structure ChunkMeta where
  file_hash : List Char
  chunk_index : Nat
  size : Nat
  stored_at : Nat
  access_count : Nat
deriving DecidableEq, Repr

/-- The service state (`StorageNodeService` plus its disk directory). -/
structure NodeState where
  node_id : List Char
  stored_chunks : List (List Char × ChunkMeta)
  total_capacity : Nat
  used_capacity : Nat
  disk : List (List Char × List Nat)
deriving DecidableEq, Repr

/-- Storage proof `SHA256(chunk_hash || chunk_data || node_id)`
(`generate_storage_proof`). -/
def generate_storage_proof (hashFn : List Nat → List Nat)
    (node_id chunk_hash : List Char) (data : List Nat) : List Char :=
  hexEncode (hashFn (chunk_hash.map Char.toNat ++ data ++ node_id.map Char.toNat))

/-- Storing a chunk (`store_chunk`): reject when capacity would be
exceeded, verify the hash, write the file, record metadata, and add the
chunk size to `used_capacity`. -/
def store_chunk (hashFn : List Nat → List Nat) (now : Nat)
    (st : NodeState) (request : ChunkUploadRequest) :
    Except (List Char) (NodeState × ChunkUploadResponse) :=
  let chunk_size := request.chunk_data.length
  if st.total_capacity < st.used_capacity + chunk_size then
    .error ("Insufficient storage capacity").toList
  else if hexEncode (hashFn request.chunk_data) ≠ request.chunk_hash then
    .error ("Chunk hash verification failed").toList
  else
    let meta : ChunkMeta :=
      ⟨request.file_hash, request.chunk_index, chunk_size, now, 0⟩
    .ok ({ st with
            disk := insertA st.disk request.chunk_hash request.chunk_data
            stored_chunks := insertA st.stored_chunks request.chunk_hash meta
            used_capacity := st.used_capacity + chunk_size },
         ⟨true, request.chunk_hash,
          generate_storage_proof hashFn st.node_id request.chunk_hash
            request.chunk_data,
          st.node_id⟩)

/-- Deleting a chunk (`delete_chunk`): read the recorded size (0 when
unknown), remove the file (error when absent), drop the metadata, and
subtract the size from `used_capacity` with saturating subtraction. -/
def delete_chunk (st : NodeState) (chunk_hash : List Char) :
    Except (List Char) NodeState :=
  let chunk_size :=
    match lookupA st.stored_chunks chunk_hash with
    | some m => m.size
    | none => 0
  match lookupA st.disk chunk_hash with
  | none => .error ("Failed to delete chunk from disk").toList
  | some _ =>
    .ok { st with
          disk := removeA st.disk chunk_hash
          stored_chunks := removeA st.stored_chunks chunk_hash
          used_capacity := st.used_capacity - chunk_size }

/-- C7: A store of a chunk of size `s` is rejected when
`used + s` would exceed the total capacity; a successful store
increases `used_capacity` by exactly `s`; and deleting the same chunk
afterwards (saturating subtraction) brings `used_capacity` back to its
pre-store value. -/
theorem store_then_delete_accounting (hashFn : List Nat → List Nat)
    (now : Nat) (st : NodeState) (request : ChunkUploadRequest) :
    (st.total_capacity < st.used_capacity + request.chunk_data.length →
      store_chunk hashFn now st request =
        .error ("Insufficient storage capacity").toList) ∧
    (st.used_capacity + request.chunk_data.length ≤ st.total_capacity →
      hexEncode (hashFn request.chunk_data) = request.chunk_hash →
      ∃ st2 resp, store_chunk hashFn now st request = .ok (st2, resp) ∧
        st2.used_capacity = st.used_capacity + request.chunk_data.length ∧
        ∃ st3, delete_chunk st2 request.chunk_hash = .ok st3 ∧
          st3.used_capacity = st.used_capacity) := by
  constructor
  · intro hover
    rw [store_chunk]
    rw [if_pos hover]
  · intro hcap hhash
    have hnot : ¬(st.total_capacity <
        st.used_capacity + request.chunk_data.length) := by omega
    have hok : store_chunk hashFn now st request = .ok
        ({ st with
            disk := insertA st.disk request.chunk_hash request.chunk_data
            stored_chunks := insertA st.stored_chunks request.chunk_hash
              ⟨request.file_hash, request.chunk_index,
                request.chunk_data.length, now, 0⟩
            used_capacity := st.used_capacity + request.chunk_data.length },
         ⟨true, request.chunk_hash,
          generate_storage_proof hashFn st.node_id request.chunk_hash
            request.chunk_data,
          st.node_id⟩) := by
      rw [store_chunk, if_neg hnot, if_neg (fun hne => hne hhash)]
    refine ⟨_, _, hok, rfl, ?_⟩
    refine ⟨{ node_id := st.node_id
              stored_chunks := removeA
                (insertA st.stored_chunks request.chunk_hash
                  ⟨request.file_hash, request.chunk_index,
                    request.chunk_data.length, now, 0⟩) request.chunk_hash
              total_capacity := st.total_capacity
              used_capacity := st.used_capacity + request.chunk_data.length -
                request.chunk_data.length
              disk := removeA
                (insertA st.disk request.chunk_hash request.chunk_data)
                request.chunk_hash }, ?_, ?_⟩
    · rw [delete_chunk]
      simp only [lookupA_insertA_self]
    · simp

/-- Closed instance of C7: storing a 3-byte chunk into an empty node of
capacity 10 raises `used_capacity` to 3, and deleting it brings
`used_capacity` back to 0. -/
theorem store_then_delete_accounting_witness :
    ∃ st2 resp,
      store_chunk Chiral.unaryHash 0
        ⟨("n1").toList, [], 10, 0, []⟩
        ⟨Chiral.hexEncode (Chiral.unaryHash [1, 2, 3]), [1, 2, 3],
          ("f").toList, 0, none⟩ = .ok (st2, resp) ∧
      st2.used_capacity = 0 + [1, 2, 3].length ∧
      ∃ st3, delete_chunk st2
          (Chiral.hexEncode (Chiral.unaryHash [1, 2, 3])) = .ok st3 ∧
        st3.used_capacity = 0 :=
  (store_then_delete_accounting Chiral.unaryHash 0
    ⟨("n1").toList, [], 10, 0, []⟩
    ⟨Chiral.hexEncode (Chiral.unaryHash [1, 2, 3]), [1, 2, 3],
      ("f").toList, 0, none⟩).2 (by decide) rfl

end StorageNode

namespace Market

/-!
Embedding of `lookup_file_suppliers` in `src/src-tauri/src/market.rs`.
Prices and reputations (`f64`/`f32`) are modelled over the rationals
(on which `partial_cmp` is a total order, as it is on the non-NaN
floats the market handles); `Vec::sort_by` is stable, modelled by
insertion sort; `u64` subtraction of the freshness check is wrapping,
as in release builds. -/

open Chiral

def U64 : Nat := 2 ^ 64

/-- Wrapping `u64` subtraction (`current_time - supplier.last_seen` in a
release build). -/
def u64_wrapping_sub (a b : Nat) : Nat :=
  (a % U64 + U64 - b % U64) % U64

/-- File supplier entry (`FileSupplier`). -/
structure FileSupplier where
  supplier_id : List Char
  file_hash : List Char
  ip : List Char
  port : Nat
  price : ℚ
  bandwidth : Nat
  reputation : ℚ
  last_seen : Nat
deriving DecidableEq, Repr

/-- The freshness filter: suppliers seen within the last 300 s. -/
def isFresh (now : Nat) (s : FileSupplier) : Bool :=
  u64_wrapping_sub now s.last_seen < 300

/-- The comparator of the supplier sort: price ascending, ties broken
by reputation descending (`a.price.partial_cmp(&b.price).then_with(||
b.reputation.partial_cmp(&a.reputation))`). -/
def supplierLe (a b : FileSupplier) : Prop :=
  a.price < b.price ∨ (a.price = b.price ∧ b.reputation ≤ a.reputation)

instance : DecidableRel supplierLe := fun a b =>
  inferInstanceAs (Decidable
    (a.price < b.price ∨ (a.price = b.price ∧ b.reputation ≤ a.reputation)))

instance : IsTotal FileSupplier supplierLe := ⟨by
  intro a b
  simp only [supplierLe]
  rcases lt_trichotomy a.price b.price with h | h | h
  · exact Or.inl (Or.inl h)
  · rcases le_total b.reputation a.reputation with hr | hr
    · exact Or.inl (Or.inr ⟨h, hr⟩)
    · exact Or.inr (Or.inr ⟨h.symm, hr⟩)
  · exact Or.inr (Or.inl h)⟩

instance : IsTrans FileSupplier supplierLe := ⟨by
  intro a b c hab hbc
  simp only [supplierLe] at hab hbc ⊢
  rcases hab with h1 | ⟨h1, r1⟩
  · rcases hbc with h2 | ⟨h2, r2⟩
    · exact Or.inl (h1.trans h2)
    · exact Or.inl (h2 ▸ h1)
  · rcases hbc with h2 | ⟨h2, r2⟩
    · exact Or.inl (lt_of_le_of_lt (le_of_eq h1) h2)
    · exact Or.inr ⟨h1.trans h2, r2.trans r1⟩⟩

/-- Supplier lookup (`lookup_file_suppliers`): filter the registered
suppliers for the hash by freshness and sort; an unknown hash yields
`Ok` with the empty list, never an error. -/
def lookup_file_suppliers (now : Nat)
    (file_suppliers : List (List Char × List FileSupplier))
    (file_hash : List Char) : Except (List Char) (List FileSupplier) :=
  match lookupA file_suppliers file_hash with
  | some fs => .ok (List.insertionSort supplierLe (fs.filter (isFresh now)))
  | none => .ok []

theorem isFresh_iff (now : Nat) (s : FileSupplier) (ha : now < U64)
    (hle : s.last_seen ≤ now) :
    isFresh now s = true ↔ now - s.last_seen < 300 := by
  rw [isFresh, u64_wrapping_sub]
  have hb : s.last_seen < U64 := lt_of_le_of_lt hle ha
  rw [Nat.mod_eq_of_lt ha, Nat.mod_eq_of_lt hb]
  have hsplit : now + U64 - s.last_seen = now - s.last_seen + U64 := by omega
  rw [hsplit, Nat.add_mod_right, Nat.mod_eq_of_lt (by omega)]
  simp

/-- C8: `lookup_file_suppliers` never fails: it returns `Ok` with
exactly the registered suppliers of the hash whose `last_seen` is
within 300 s of the current time (a permutation of the filtered
registrations; a supplier is in the result iff it is registered and
fresh), sorted by price ascending with ties broken by reputation
descending; a hash with no registered suppliers yields the empty list.
For times within the `u64` range, freshness means
`now - last_seen < 300`. -/
theorem lookup_file_suppliers_spec (now : Nat)
    (file_suppliers : List (List Char × List FileSupplier))
    (file_hash : List Char) :
    ∃ l, lookup_file_suppliers now file_suppliers file_hash = .ok l ∧
      l.Perm (((lookupA file_suppliers file_hash).getD []).filter (isFresh now)) ∧
      l.Pairwise supplierLe ∧
      (∀ s, s ∈ l ↔
        s ∈ ((lookupA file_suppliers file_hash).getD []).filter (isFresh now)) ∧
      (lookupA file_suppliers file_hash = none → l = []) ∧
      (∀ s : FileSupplier, now < U64 → s.last_seen ≤ now →
        (isFresh now s = true ↔ now - s.last_seen < 300)) := by
  cases hm : lookupA file_suppliers file_hash with
  | none =>
    refine ⟨[], ?_, ?_, ?_, ?_, fun _ => rfl, ?_⟩
    · rw [lookup_file_suppliers, hm]
    · simp
    · simp
    · simp
    · intro s ha hle
      exact isFresh_iff now s ha hle
  | some fs =>
    refine ⟨List.insertionSort supplierLe (fs.filter (isFresh now)),
      ?_, ?_, ?_, ?_, ?_, ?_⟩
    · rw [lookup_file_suppliers, hm]
    · simpa using List.perm_insertionSort supplierLe (fs.filter (isFresh now))
    · exact List.sorted_insertionSort supplierLe _
    · intro s
      simp [List.mem_insertionSort]
    · intro hnone
      cases hnone
    · intro s ha hle
      exact isFresh_iff now s ha hle

/-- Closed instance of C8: looking up a hash with no registered
suppliers returns `Ok` with the empty list. -/
theorem lookup_file_suppliers_spec_witness :
    lookup_file_suppliers 1000 [] (("h").toList) = .ok [] := by
  obtain ⟨l, h1, _, _, _, h5, _⟩ :=
    lookup_file_suppliers_spec 1000 [] (("h").toList)
  rw [h5 rfl] at h1
  exact h1

end Market
